import Mathlib

/-!
# Verification of the WCNF formula model, codec and 1,3-WPM normalizer

This file is a shallow embedding, in Lean 4, of the Python module `wcnf.py`
of the repository under verification.  Python lists become Lean `List`s,
Python integers become `Int` (variable counters, which are always
non-negative, become `Nat`), Python exceptions become `Except String`,
and strings become `List Char`.  Each definition mirrors one Python
function; theorems about the definitions settle the specification's claims.
-/

set_option maxHeartbeats 1000000

namespace WCNF

/-- The in-memory sentinel weight marking a clause as hard (`TOP_WEIGHT = 0`). -/
def TOP_WEIGHT : Int := 0

/-- `WCNFFormula.__init__`: the fields of a WCNF formula object.
`num_vars` is the variable counter, `hard` the list of hard clauses,
`soft` the list of `(weight, literals)` pairs, `sum_soft_weights` the
cached sum of the soft weights, and `header` the comment header lines. -/
@[ext]
structure WCNFFormula where
  num_vars : Nat
  hard : List (List Int)
  soft : List (Int × List Int)
  sum_soft_weights : Int
  header : List (List Char)
  deriving Repr, DecidableEq

namespace WCNFFormula

/-- A freshly constructed formula (`WCNFFormula()`). -/
def empty : WCNFFormula := ⟨0, [], [], 0, []⟩

/-- `num_clauses` property: `len(hard) + len(soft)`. -/
def num_clauses (f : WCNFFormula) : Nat := f.hard.length + f.soft.length

/-- `top_weight` property: `sum_soft_weights + 1`. -/
def top_weight (f : WCNFFormula) : Int := f.sum_soft_weights + 1

/-- `_add_clause`: append to `hard` when `weight < 1`, otherwise append to
`soft` and add the weight to the cached sum. -/
def add_clause_raw (f : WCNFFormula) (literals : List Int) (weight : Int) :
    WCNFFormula :=
  if weight < 1 then
    { f with hard := f.hard ++ [literals] }
  else
    { f with soft := f.soft ++ [(weight, literals)],
             sum_soft_weights := f.sum_soft_weights + weight }

/-- `_check_literals`: walk the literal list and fail on the first literal
that is `0` or references a variable above `num_vars`. -/
def check_literals (f : WCNFFormula) : List Int → Except String Unit
  | [] => .ok ()
  | l :: ls =>
    if l.natAbs = 0 then
      .error "Clause cannot contain variable 0"
    else if f.num_vars < l.natAbs then
      .error "Clause contains variable not defined by new_var()"
    else
      f.check_literals ls

/-- `add_clause`: validate the literals, then store the clause. -/
def add_clause (f : WCNFFormula) (literals : List Int) (weight : Int) :
    Except String WCNFFormula := do
  f.check_literals literals
  pure (f.add_clause_raw literals weight)

/-- `add_clauses`: add every clause of the list in order with the same
weight; a failure aborts the remaining additions. -/
def add_clauses (f : WCNFFormula) (clauses : List (List Int)) (weight : Int) :
    Except String WCNFFormula :=
  match clauses with
  | [] => .ok f
  | c :: rest => do
    let f' ← f.add_clause c weight
    f'.add_clauses rest weight

/-- `extend_vars`: bulk-extend the variable counter; negative counts fail. -/
def extend_vars (f : WCNFFormula) (how_many : Int) :
    Except String WCNFFormula :=
  if how_many < 0 then .error "Cannot be extended a negative quantity"
  else .ok { f with num_vars := f.num_vars + how_many.toNat }

/-- `new_var`: increment the counter and return the fresh variable. -/
def new_var (f : WCNFFormula) : Nat × WCNFFormula :=
  (f.num_vars + 1, { f with num_vars := f.num_vars + 1 })

/-- `is_13wpm`: every soft clause has length 1, and every hard clause has
length 3 (or, non-strictly, less than 3). -/
def is_13wpm (f : WCNFFormula) (strict : Bool) : Bool :=
  (f.soft.all fun c => c.2.length == 1) &&
  (f.hard.all fun c => c.length == 3 || (decide (c.length < 3) && !strict))

/-- `_hard_to_len_3`: recursively split a hard clause into length-3 hard
clauses.  A clause of length at most 3 is padded with copies of its first
literal (on the empty clause, Python's `clause[0]` raises `IndexError`,
modelled as an error); a longer clause stores its first two literals plus a
fresh variable `y` and recurses on `-y` followed by the remaining literals. -/
def hard_to_len_3 (f : WCNFFormula) (clause : List Int) :
    Except String WCNFFormula :=
  if clause.length ≤ 3 then
    match clause with
    | [] => .error "IndexError: list index out of range"
    | c0 :: _ =>
      f.add_clause (clause ++ List.replicate (3 - clause.length) c0) 0
  else
    let (v, f1) := f.new_var
    do
      let f2 ← f1.add_clause (clause.take 2 ++ [(v : Int)]) 0
      f2.hard_to_len_3 ((-(v : Int)) :: clause.drop 2)
  termination_by clause.length
  decreasing_by
    simp only [List.length_cons, List.length_drop]
    omega

/-- The Stage-A loop of `to_13wpm` over the input's soft clauses: a soft
clause of length 1 is re-added as is; any other soft clause is replaced by a
fresh reification variable `r`, a soft clause `[-r]` with the same weight,
and a hard clause `literals ++ [r]`. -/
def stageA (f : WCNFFormula) :
    List (Int × List Int) → Except String WCNFFormula
  | [] => .ok f
  | (w, lits) :: rest =>
    if lits.length = 1 then do
      let f' ← f.add_clause lits w
      stageA f' rest
    else
      let (r, f1) := f.new_var
      do
        let f2 ← f1.add_clause [-(r : Int)] w
        let f3 ← f2.add_clause (lits ++ [(r : Int)]) TOP_WEIGHT
        stageA f3 rest

/-- The soft-clause copying loop of `to_13wpm`
(`formula13.add_clause(clause[1], clause[0])` over `formula1.soft`). -/
def copySoft (f : WCNFFormula) :
    List (Int × List Int) → Except String WCNFFormula
  | [] => .ok f
  | (w, lits) :: rest => do
    let f' ← f.add_clause lits w
    copySoft f' rest

/-- The hard-clause splitting loop of `to_13wpm`
(`formula13._hard_to_len_3(clause)` over `formula1.hard`). -/
def hardLoop (f : WCNFFormula) :
    List (List Int) → Except String WCNFFormula
  | [] => .ok f
  | c :: rest => do
    let f' ← f.hard_to_len_3 c
    hardLoop f' rest

/-- `to_13wpm`: build the intermediate formula with soft clauses of
length 1 (Stage A followed by copying the original hard clauses), then the
final formula whose hard clauses are split to length 3 (Stage B). -/
def to_13wpm (f : WCNFFormula) : Except String WCNFFormula := do
  let base1 ← WCNFFormula.empty.extend_vars (f.num_vars : Int)
  let fSoft ← stageA base1 f.soft
  let formula1 ← fSoft.add_clauses f.hard TOP_WEIGHT
  let base13 ← WCNFFormula.empty.extend_vars (formula1.num_vars : Int)
  let fCopy ← copySoft base13 formula1.soft
  let formula13 ← hardLoop fCopy formula1.hard
  pure formula13



end WCNFFormula

/-! ## Explicit descriptions of the clauses generated by the normalizer

The following pure functions describe, clause by clause, what the two
stages of `to_13wpm` produce.  `n` is the variable counter at the point
the described clauses are generated; they are proved equal to the
normalizer's output below and serve to state the specification's
stage-by-stage claims. -/

/-- Soft clauses of the Stage-A output, for an input soft list whose
weights are all at least 1: length-1 clauses are kept, any other clause
of weight `w` becomes `(w, [-r])` for the fresh reification variable `r`. -/
def stageASoftGen (n : Nat) : List (Int × List Int) → List (Int × List Int)
  | [] => []
  | (w, lits) :: rest =>
    if lits.length = 1 then (w, lits) :: stageASoftGen n rest
    else (w, [-((n + 1 : Nat) : Int)]) :: stageASoftGen (n + 1) rest

/-- Hard clauses generated by Stage A, for an input soft list whose
weights are all at least 1: each soft clause of length other than 1 with
literals `lits` contributes the hard clause `lits ++ [r]`. -/
def stageAHardGen (n : Nat) : List (Int × List Int) → List (List Int)
  | [] => []
  | (_, lits) :: rest =>
    if lits.length = 1 then stageAHardGen n rest
    else (lits ++ [((n + 1 : Nat) : Int)]) :: stageAHardGen (n + 1) rest

/-- Number of fresh reification variables allocated by Stage A: one per
soft clause of length other than 1. -/
def stageACount : List (Int × List Int) → Nat
  | [] => 0
  | (_, lits) :: rest =>
    (if lits.length = 1 then 0 else 1) + stageACount rest

/-- The length-3 clauses `_hard_to_len_3` generates from a (nonempty) hard
clause when the variable counter stands at `n`: a clause of length at most
3 is padded with its head, a longer clause is split using variable `n+1`. -/
def splitGen (n : Nat) (clause : List Int) : List (List Int) :=
  if clause.length ≤ 3 then
    [clause ++ List.replicate (3 - clause.length) (clause.headD 0)]
  else
    (clause.take 2 ++ [((n + 1 : Nat) : Int)]) ::
      splitGen (n + 1) ((-((n + 1 : Nat) : Int)) :: clause.drop 2)
  termination_by clause.length
  decreasing_by
    simp only [List.length_cons, List.length_drop]
    omega

/-- The clauses generated by Stage B for a whole hard-clause list, with
the evolving variable counter (each clause of length `k > 3` consumes
`k - 3` fresh variables). -/
def splitAllGen (n : Nat) : List (List Int) → List (List Int)
  | [] => []
  | c :: rest => splitGen n c ++ splitAllGen (n + (c.length - 3)) rest

/-- Total number of fresh variables consumed by Stage B. -/
def splitAllCount : List (List Int) → Nat
  | [] => 0
  | c :: rest => (c.length - 3) + splitAllCount rest

/-- Sum of the weights of a soft-clause list. -/
def sumWeights (l : List (Int × List Int)) : Int :=
  (l.map Prod.fst).sum

/-! ## Assignment semantics

MaxSAT semantics of a formula: an assignment maps variables to Booleans;
a literal is satisfied according to its sign, a clause if some literal is,
and the cost of an assignment is the sum of the weights of the violated
soft clauses. -/

/-- A (total) truth assignment on variables. -/
def Assignment : Type := Nat → Bool

/-- Satisfaction of a literal: a positive literal holds when its variable
is true, a negative one when its variable is false. -/
def litSat (σ : Assignment) (l : Int) : Bool :=
  if 0 < l then σ l.natAbs else !σ l.natAbs

/-- Satisfaction of a clause: some literal is satisfied. -/
def clauseSat (σ : Assignment) (c : List Int) : Bool :=
  c.any (litSat σ)

/-- Satisfaction of a list of hard clauses. -/
def hardSatList (σ : Assignment) (cs : List (List Int)) : Bool :=
  cs.all (clauseSat σ)

/-- All hard clauses of the formula are satisfied. -/
def WCNFFormula.hardSat (σ : Assignment) (f : WCNFFormula) : Bool :=
  hardSatList σ f.hard

/-- Sum of the weights of the violated soft clauses of a soft list. -/
def costList (σ : Assignment) (soft : List (Int × List Int)) : Int :=
  (soft.map fun p => if clauseSat σ p.2 then 0 else p.1).sum

/-- Cost of an assignment on a formula: total weight of violated soft
clauses. -/
def WCNFFormula.cost (σ : Assignment) (f : WCNFFormula) : Int :=
  costList σ f.soft

/-! ## Well-formedness of a formula

These predicates state the data-model invariants of reachable formula
objects: stored literals are nonzero and reference allocated variables,
soft weights are at least 1, and the cached weight sum is the sum of the
soft weights. -/

/-- Every literal of the clause is nonzero and references a variable at
most `n`. -/
def litsOk (n : Nat) (c : List Int) : Prop :=
  ∀ l ∈ c, l ≠ 0 ∧ l.natAbs ≤ n

instance (n : Nat) (c : List Int) : Decidable (litsOk n c) := by
  unfold litsOk; infer_instance

/-- The stored-literal invariant of the data model: every literal of every
hard or soft clause is nonzero and references an allocated variable. -/
def WCNFFormula.LitInv (f : WCNFFormula) : Prop :=
  (∀ c ∈ f.hard, litsOk f.num_vars c) ∧ (∀ p ∈ f.soft, litsOk f.num_vars p.2)

instance (f : WCNFFormula) : Decidable f.LitInv := by
  unfold WCNFFormula.LitInv; infer_instance

/-- Full well-formedness of a programmatically built formula: the literal
invariant, positive soft weights, and a consistent cached weight sum. -/
def WCNFFormula.Wf (f : WCNFFormula) : Prop :=
  f.LitInv ∧ (∀ p ∈ f.soft, 1 ≤ p.1) ∧
    f.sum_soft_weights = (f.soft.map Prod.fst).sum

instance (f : WCNFFormula) : Decidable f.Wf := by
  unfold WCNFFormula.Wf; infer_instance

/-- Highest variable referenced by any clause of the formula (0 when no
clause references any variable): the value the parser's auto-extension
rebuilds `num_vars` to on a round trip. -/
def WCNFFormula.maxVar (f : WCNFFormula) : Nat :=
  ((f.hard ++ f.soft.map Prod.snd).map
    fun c => c.foldl (fun a l => max a l.natAbs) 0).foldl max 0

/-- Invariant of the formulas the normalizer builds: every stored soft
clause has weight at least 1 (enforced by `_add_clause`) and exactly one
literal (enforced by Stage A). -/
def SoftOk (f : WCNFFormula) : Prop :=
  ∀ p ∈ f.soft, 1 ≤ p.1 ∧ p.2.length = 1

/-- Invariant of the Stage-B output: every stored hard clause has exactly
three literals. -/
def Hard3 (f : WCNFFormula) : Prop :=
  ∀ c ∈ f.hard, c.length = 3

/-! ## Codec: text primitives

Python strings are modelled as `List Char`; `str(int)`, `int(str)`,
`str.strip`, `str.split` and line splitting are re-implemented below with
the same semantics on the character lists the codec produces. -/

/-- The decimal digit character for a value below 10. -/
def digitChar (d : Nat) : Char :=
  match d with
  | 0 => '0' | 1 => '1' | 2 => '2' | 3 => '3' | 4 => '4'
  | 5 => '5' | 6 => '6' | 7 => '7' | 8 => '8' | _ => '9'

/-- Decimal digits of `n`, least significant first. -/
def natDigitsRev (n : Nat) : List Char :=
  if h : n < 10 then [digitChar n]
  else digitChar (n % 10) :: natDigitsRev (n / 10)
  termination_by n
  decreasing_by exact Nat.div_lt_self (by omega) (by omega)

/-- `str(n)` for a natural number. -/
def natToChars (n : Nat) : List Char := (natDigitsRev n).reverse

/-- `str(i)` for an integer: a minus sign followed by the digits when
negative. -/
def intToChars (i : Int) : List Char :=
  if i < 0 then '-' :: natToChars i.natAbs else natToChars i.toNat

/-- Numeric value of a decimal digit character, if it is one. -/
def digitVal (c : Char) : Option Nat :=
  if '0' ≤ c ∧ c ≤ '9' then some (c.toNat - '0'.toNat) else none

/-- Accumulating decimal evaluation of a digit string. -/
def digitsToNatAux (acc : Nat) : List Char → Option Nat
  | [] => some acc
  | c :: cs =>
    match digitVal c with
    | some d => digitsToNatAux (10 * acc + d) cs
    | none => none

/-- Value of a nonempty all-digit string. -/
def digitsToNat : List Char → Option Nat
  | [] => none
  | c :: cs => digitsToNatAux 0 (c :: cs)

/-- `int(token)`: an optional sign followed by at least one digit. -/
def parseInt (t : List Char) : Except String Int :=
  match t with
  | [] => .error "invalid literal for int()"
  | c :: rest =>
    if c = '-' then
      match digitsToNat rest with
      | some n => .ok (-(n : Int))
      | none => .error "invalid literal for int()"
    else if c = '+' then
      match digitsToNat rest with
      | some n => .ok ((n : Int))
      | none => .error "invalid literal for int()"
    else
      match digitsToNat (c :: rest) with
      | some n => .ok ((n : Int))
      | none => .error "invalid literal for int()"

/-- `str.strip()`: remove leading and trailing whitespace. -/
def stripChars (l : List Char) : List Char :=
  ((l.dropWhile Char.isWhitespace).reverse.dropWhile Char.isWhitespace).reverse

/-- `str.startswith("c")`. -/
def startsWithC (l : List Char) : Bool :=
  match l with
  | 'c' :: _ => true
  | _ => false

/-- `str.split()`: maximal runs of non-whitespace characters. -/
def splitWs : List Char → List (List Char)
  | [] => []
  | c :: cs =>
    if c.isWhitespace then splitWs cs
    else (c :: cs.takeWhile (fun d => !d.isWhitespace)) ::
      splitWs (cs.dropWhile (fun d => !d.isWhitespace))
  termination_by l => l.length
  decreasing_by
    · simp only [List.length_cons]; omega
    · simp only [List.length_cons]
      exact Nat.lt_succ_of_le (List.dropWhile_sublist _).length_le

/-- Split a character stream into lines at each newline character, the
way iterating over a Python text stream does (modulo the line
terminators, which `strip` removes anyway). -/
def splitNl : List Char → List (List Char)
  | [] => [[]]
  | c :: cs =>
    if c = '\n' then [] :: splitNl cs
    else
      match splitNl cs with
      | [] => [[c]]
      | l :: ls => (c :: l) :: ls

/-- Concatenate lines, terminating each with a newline, the way repeated
`print(..., file=stream)` calls do. -/
def unlines (ls : List (List Char)) : List Char :=
  ls.foldr (fun l acc => l ++ '\n' :: acc) []

/-! ## Codec: writer -/

/-- `" ".join(tokens)`, which is also the single-space separator `print`
places between its positional arguments. -/
def joinSep : List (List Char) → List Char
  | [] => []
  | [t] => t
  | t :: ts => t ++ ' ' :: joinSep ts

/-- One clause line of `write_dimacs`:
`print(weight, " ".join(str(l) for l in literals), "0")`. -/
def clauseLine (w : Int) (lits : List Int) : List Char :=
  joinSep [intToChars w, joinSep (lits.map intToChars), ['0']]

/-- The preamble line `print("p wcnf", num_vars, num_clauses, top)`. -/
def preambleLine (f : WCNFFormula) : List Char :=
  joinSep
    [['p', ' ', 'w', 'c', 'n', 'f'], natToChars f.num_vars,
      natToChars f.num_clauses, intToChars f.top_weight]

/-- The fixed hard-clause caption comment line. -/
def hardCaption : List Char :=
  'c' :: " ===== Hard Clauses =====".data

/-- The soft-clause caption comment line, which interpolates the weight
sum. -/
def softCaption (s : Int) : List Char :=
  'c' :: " ===== Soft Clauses (Sum weights: ".data ++ intToChars s ++
    ") =====".data

/-- `write_dimacs`: header comments, preamble, hard clauses tagged with
the top weight, then soft clauses tagged with their own weight. -/
def WCNFFormula.write_dimacs (f : WCNFFormula) : List Char :=
  unlines
    (f.header.map (fun l => 'c' :: ' ' :: l) ++
      [preambleLine f, hardCaption] ++
      f.hard.map (fun c => clauseLine f.top_weight c) ++
      [softCaption f.sum_soft_weights] ++
      f.soft.map (fun p => clauseLine p.1 p.2))

/-! ## Codec: parser -/

/-- `[int(e) for e in v]`, failing on the first non-numeric token. -/
def parseInts : List (List Char) → Except String (List Int)
  | [] => .ok []
  | t :: ts => do
    let v ← parseInt t
    let vs ← parseInts ts
    pure (v :: vs)

/-- The `itertools.groupby` run splitting: maximal runs of nonzero values
(the groups of zeros are dropped). -/
def rawClauses : List Int → List (List Int)
  | [] => []
  | v :: vs =>
    if v = 0 then rawClauses vs
    else (v :: vs.takeWhile (fun x => x ≠ 0)) ::
      rawClauses (vs.dropWhile (fun x => x ≠ 0))
  termination_by l => l.length
  decreasing_by
    · simp only [List.length_cons]; omega
    · simp only [List.length_cons]
      exact Nat.lt_succ_of_le (List.dropWhile_sublist _).length_le

/-- `max(abs(l) for l in c)` (0 on the empty list, which the parser never
reaches). -/
def highestVar (c : List Int) : Nat :=
  c.foldl (fun a l => max a l.natAbs) 0

/-- The parser's `while formula.num_vars < highest_var: formula.new_var()`
auto-extension loop. -/
def WCNFFormula.autoExtend (f : WCNFFormula) (h : Nat) : WCNFFormula :=
  if f.num_vars < h then
    WCNFFormula.autoExtend { f with num_vars := f.num_vars + 1 } h
  else f
  termination_by h - f.num_vars

/-- Processing of the runs of one clause line: split each run into weight
and literals (`get_clause`), reject empty literal lists, auto-extend the
variable counter, and add the clause, translating a weight equal to the
preamble top into the hard sentinel. -/
def processRuns (top : Int) (f : WCNFFormula) :
    List (List Int) → Except String WCNFFormula
  | [] => .ok f
  | r :: rs => do
    let (w, c) ←
      if 0 < top then
        match r with
        | [] => Except.error "IndexError: list index out of range"
        | w :: ls => Except.ok ((w, ls) : Int × List Int)
      else
        Except.ok ((1, r) : Int × List Int)
    if c = [] then Except.error "Clause without literals"
    else do
      let f1 := f.autoExtend (highestVar c)
      let f2 ← f1.add_clause c (if w = top then TOP_WEIGHT else w)
      processRuns top f2 rs

/-- The main parsing loop over the preprocessed lines, carrying the
Python locals `f_type, n_clauses, n_vars, top` and the formula being
built. -/
def parseLoop (fty : Option (List Char)) (nClauses nVars top : Int)
    (f : WCNFFormula) : List (List Char) →
    Except String (Option (List Char) × Int × Int × Int × WCNFFormula)
  | [] => .ok (fty, nClauses, nVars, top, f)
  | l :: rest =>
    match splitWs l with
    | [] => .error "IndexError: list index out of range"
    | v0 :: vrest =>
      if v0 = ['p'] ∧ fty = none then
        if 4 ≤ (v0 :: vrest).length ∧ (v0 :: vrest).length ≤ 5 then
          match vrest with
          | v1 :: v2 :: v3 :: vs =>
            if v1 = ['c', 'n', 'f'] then do
              let a ← parseInt v2
              let b ← parseInt v3
              parseLoop (some v1) b a top f rest
            else if v1 = ['w', 'c', 'n', 'f'] then do
              let a ← parseInt v2
              let b ← parseInt v3
              let t ←
                match vs with
                | v4 :: _ => parseInt v4
                | [] => Except.error "IndexError: list index out of range"
              parseLoop (some v1) b a t f rest
            else .error "Invalid formula type"
          | _ => .error "Invalid number of elements"
        else .error "Invalid number of elements"
      else if fty ≠ none then do
        let values ← parseInts (v0 :: vrest)
        let f' ← processRuns top f (rawClauses values)
        parseLoop fty nClauses nVars top f' rest
      else .error "Clause found before preamble"

/-- The reader pipeline of `load_from_stream`: strip each line, keep the
nonempty lines that do not start with `c`. -/
def preprocessLines (ls : List (List Char)) : List (List Char) :=
  (ls.map stripChars).filter fun l => !(l.isEmpty || startsWithC l)

/-- `load_from_stream` on a character stream: run the parsing loop, then
apply the strict-mode preamble checks. -/
def load_from_chars (stream : List Char) (strict : Bool) :
    Except String WCNFFormula := do
  let (_, nClauses, nVars, _, f) ←
    parseLoop none (-1) (-1) (-1) WCNFFormula.empty
      (preprocessLines (splitNl stream))
  if strict ∧ (f.num_vars : Int) ≠ nVars then
    .error "incorrect number of variables"
  else if strict ∧ (f.num_clauses : Int) ≠ nClauses then
    .error "incorrect number of clauses"
  else pure f

/-- The formula state accumulated by the parsing loop over a block of
clause lines, one (weight, literals) pair per line: auto-extend the
variable counter to the highest referenced variable, then store the
clause, translating a weight equal to the preamble top into the hard
sentinel. -/
def foldClauses (top : Int) (g : WCNFFormula)
    (cls : List (Int × List Int)) : WCNFFormula :=
  cls.foldl (fun g p => (g.autoExtend (highestVar p.2)).add_clause_raw p.2
    (if p.1 = top then TOP_WEIGHT else p.1)) g

/-! ## Basic lemmas: `Except` plumbing and clause addition -/

theorem except_ok_bind {α β : Type} (a : α) (k : α → Except String β) :
    ((Except.ok a : Except String α) >>= k) = k a := rfl

theorem except_bind_ok {α β : Type} {x : Except String α}
    {k : α → Except String β} {b : β} (h : x >>= k = .ok b) :
    ∃ a, x = .ok a ∧ k a = .ok b := by
  cases x with
  | ok a => exact ⟨a, rfl, h⟩
  | error e => exact Except.noConfusion h

theorem check_literals_ok_iff (f : WCNFFormula) (c : List Int) :
    f.check_literals c = .ok () ↔ litsOk f.num_vars c := by
  induction c with
  | nil => simp [WCNFFormula.check_literals, litsOk]
  | cons l ls ih =>
    by_cases h0 : l.natAbs = 0
    · have : l = 0 := Int.natAbs_eq_zero.mp h0
      simp [WCNFFormula.check_literals, h0, litsOk, this]
    · by_cases h1 : f.num_vars < l.natAbs
      · simp only [WCNFFormula.check_literals, h0, if_false, h1, if_true,
          litsOk, List.mem_cons, if_neg, reduceCtorEq]
        constructor
        · intro h; exact absurd h (by simp)
        · intro h
          have := (h l (Or.inl rfl)).2
          omega
      · simp only [WCNFFormula.check_literals, if_neg h0, if_neg h1, ih,
          litsOk, List.mem_cons]
        constructor
        · intro h
          intro l' hl'
          rcases hl' with h' | h'
          · subst h'
            exact ⟨fun hz => h0 (by simp [hz]), by omega⟩
          · exact h l' h'
        · intro h l' hl'
          exact h l' (Or.inr hl')

theorem add_clause_ok_of_litsOk (f : WCNFFormula) (c : List Int) (w : Int)
    (h : litsOk f.num_vars c) :
    f.add_clause c w = .ok (f.add_clause_raw c w) := by
  unfold WCNFFormula.add_clause
  rw [(check_literals_ok_iff f c).mpr h]
  rfl

theorem add_clause_ok_elim {f : WCNFFormula} {c : List Int} {w : Int}
    {g : WCNFFormula} (h : f.add_clause c w = .ok g) :
    g = f.add_clause_raw c w ∧ litsOk f.num_vars c := by
  unfold WCNFFormula.add_clause at h
  cases hc : f.check_literals c with
  | ok u =>
    cases u
    rw [hc] at h
    refine ⟨?_, (check_literals_ok_iff f c).mp hc⟩
    exact (Except.ok.inj h).symm
  | error e =>
    rw [hc] at h
    exact Except.noConfusion h

theorem add_clause_raw_of_lt {w : Int} (f : WCNFFormula) (c : List Int)
    (h : w < 1) :
    f.add_clause_raw c w = { f with hard := f.hard ++ [c] } := by
  simp [WCNFFormula.add_clause_raw, h]

theorem add_clause_raw_of_ge {w : Int} (f : WCNFFormula) (c : List Int)
    (h : 1 ≤ w) :
    f.add_clause_raw c w =
      { f with soft := f.soft ++ [(w, c)],
               sum_soft_weights := f.sum_soft_weights + w } := by
  simp [WCNFFormula.add_clause_raw, show ¬ w < 1 by omega]

theorem add_clause_raw_num_vars (f : WCNFFormula) (c : List Int) (w : Int) :
    (f.add_clause_raw c w).num_vars = f.num_vars := by
  unfold WCNFFormula.add_clause_raw
  split <;> rfl

/-! ## Claim C1: the normalizer's output is in strict 1,3-WPM form -/

theorem SoftOk.add_raw {f : WCNFFormula} (hf : SoftOk f) {c : List Int}
    {w : Int} (h : c.length = 1 ∨ w < 1) :
    SoftOk (f.add_clause_raw c w) := by
  unfold WCNFFormula.add_clause_raw
  split
  · exact hf
  · rename_i hw
    intro p hp
    rcases List.mem_append.mp hp with h' | h'
    · exact hf p h'
    · rcases List.mem_singleton.mp h' with rfl
      refine ⟨by omega, ?_⟩
      rcases h with h | h
      · exact h
      · exact absurd h hw

theorem stageA_SoftOk : ∀ (l : List (Int × List Int)) (f g : WCNFFormula),
    SoftOk f → WCNFFormula.stageA f l = .ok g → SoftOk g := by
  intro l
  induction l with
  | nil =>
    intro f g hf h
    simp only [WCNFFormula.stageA] at h
    exact (Except.ok.inj h) ▸ hf
  | cons p rest ih =>
    intro f g hf h
    obtain ⟨w, lits⟩ := p
    simp only [WCNFFormula.stageA] at h
    split at h
    · rename_i hlen
      obtain ⟨f', hadd, hrest⟩ := except_bind_ok h
      obtain ⟨rfl, -⟩ := add_clause_ok_elim hadd
      exact ih _ _ (hf.add_raw (Or.inl hlen)) hrest
    · obtain ⟨f2, hadd2, h2⟩ := except_bind_ok h
      obtain ⟨f3, hadd3, h3⟩ := except_bind_ok h2
      obtain ⟨rfl, -⟩ := add_clause_ok_elim hadd2
      obtain ⟨rfl, -⟩ := add_clause_ok_elim hadd3
      refine ih _ _ ?_ h3
      refine SoftOk.add_raw ?_ (Or.inr (by norm_num [TOP_WEIGHT]))
      refine SoftOk.add_raw ?_ (Or.inl rfl)
      exact fun p hp => hf p hp

theorem add_clauses_hard_weight : ∀ (cs : List (List Int))
    (f g : WCNFFormula) (w : Int), w < 1 →
    WCNFFormula.add_clauses f cs w = .ok g →
    g.soft = f.soft ∧ g.num_vars = f.num_vars ∧
      g.sum_soft_weights = f.sum_soft_weights := by
  intro cs
  induction cs with
  | nil =>
    intro f g w hw h
    simp only [WCNFFormula.add_clauses] at h
    rcases Except.ok.inj h with rfl
    exact ⟨rfl, rfl, rfl⟩
  | cons c rest ih =>
    intro f g w hw h
    simp only [WCNFFormula.add_clauses] at h
    obtain ⟨f', hadd, hrest⟩ := except_bind_ok h
    obtain ⟨rfl, -⟩ := add_clause_ok_elim hadd
    have := ih _ _ _ hw hrest
    rw [add_clause_raw_of_lt f c hw] at this
    simpa using this

theorem copySoft_shape : ∀ (l : List (Int × List Int)) (f g : WCNFFormula),
    (∀ p ∈ l, 1 ≤ p.1 ∧ p.2.length = 1) → SoftOk f →
    WCNFFormula.copySoft f l = .ok g → SoftOk g ∧ g.hard = f.hard := by
  intro l
  induction l with
  | nil =>
    intro f g _ hf h
    simp only [WCNFFormula.copySoft] at h
    rcases Except.ok.inj h with rfl
    exact ⟨hf, rfl⟩
  | cons p rest ih =>
    intro f g hl hf h
    obtain ⟨w, lits⟩ := p
    simp only [WCNFFormula.copySoft] at h
    obtain ⟨f', hadd, hrest⟩ := except_bind_ok h
    obtain ⟨rfl, -⟩ := add_clause_ok_elim hadd
    have hp := hl (w, lits) (List.mem_cons_self _ _)
    have :=
      ih _ _ (fun q hq => hl q (List.mem_cons_of_mem _ hq))
        (hf.add_raw (Or.inl hp.2)) hrest
    rw [add_clause_raw_of_ge f lits hp.1] at this
    simpa using this

theorem splitGen_length3 : ∀ (n : Nat) (c : List Int), c ≠ [] →
    ∀ d ∈ splitGen n c, d.length = 3 := by
  intro n c
  induction n, c using splitGen.induct with
  | case1 n c hle =>
    intro hne d hd
    rw [splitGen, if_pos hle] at hd
    rcases List.mem_singleton.mp hd with rfl
    have : 1 ≤ c.length := by
      cases c with
      | nil => exact absurd rfl hne
      | cons a l => simp
    simp [List.length_replicate]
    omega
  | case2 n c hle ih =>
    intro hne d hd
    rw [splitGen, if_neg hle] at hd
    rcases List.mem_cons.mp hd with rfl | hd
    · have : c.length ≤ 3 ∨ (c.take 2).length = 2 := by
        right
        rw [List.length_take]
        omega
      simp [List.length_append]
      omega
    · exact ih (by simp) d hd

theorem hard_to_len_3_elim : ∀ (f : WCNFFormula) (c : List Int)
    (g : WCNFFormula), f.hard_to_len_3 c = .ok g →
    c ≠ [] ∧ g.soft = f.soft ∧ g.sum_soft_weights = f.sum_soft_weights ∧
      g.num_vars = f.num_vars + (c.length - 3) ∧
      g.hard = f.hard ++ splitGen f.num_vars c ∧ g.header = f.header := by
  intro f c
  induction f, c using WCNFFormula.hard_to_len_3.induct with
  | case1 f hle =>
    intro g h
    rw [WCNFFormula.hard_to_len_3, if_pos hle] at h
    exact Except.noConfusion h
  | case2 f l ls hle =>
    intro g h
    rw [WCNFFormula.hard_to_len_3, if_pos hle] at h
    obtain ⟨rfl, -⟩ := add_clause_ok_elim h
    rw [add_clause_raw_of_lt _ _ (by norm_num)]
    refine ⟨by simp, rfl, rfl,
      by simp only [List.length_cons] at hle ⊢; omega, ?_, rfl⟩
    rw [splitGen, if_pos hle]
    simp
  | case3 f clause hle v f1 hnv ih =>
    intro g h
    rw [WCNFFormula.hard_to_len_3.eq_def] at h
    rw [if_neg hle, hnv] at h
    simp only [] at h
    obtain ⟨f2, hadd, hrec⟩ := except_bind_ok h
    obtain ⟨rfl, -⟩ := add_clause_ok_elim hadd
    obtain ⟨v_eq, f1_eq⟩ : v = f.num_vars + 1 ∧
        f1 = { f with num_vars := f.num_vars + 1 } := by
      have := hnv.symm
      rw [WCNFFormula.new_var] at this
      exact ⟨congrArg Prod.fst this, congrArg Prod.snd this⟩
    obtain ⟨hne, hsoft, hsum, hnvars, hhard, hheader⟩ := ih _ _ hrec
    subst v_eq f1_eq
    rw [add_clause_raw_of_lt _ _ (by norm_num)]
      at hsoft hsum hnvars hhard hheader
    refine ⟨by rintro rfl; simp at hle, hsoft, hsum, ?_, ?_, hheader⟩
    · simp only [add_clause_raw_num_vars] at hnvars
      simp only [hnvars, List.length_cons, List.length_drop]
      omega
    · rw [hhard]
      conv_rhs => rw [splitGen]
      rw [if_neg hle]
      simp [List.append_assoc]

theorem hardLoop_Hard3 : ∀ (l : List (List Int)) (f g : WCNFFormula),
    Hard3 f → WCNFFormula.hardLoop f l = .ok g →
    Hard3 g ∧ g.soft = f.soft := by
  intro l
  induction l with
  | nil =>
    intro f g hf h
    simp only [WCNFFormula.hardLoop] at h
    rcases Except.ok.inj h with rfl
    exact ⟨hf, rfl⟩
  | cons c rest ih =>
    intro f g hf h
    simp only [WCNFFormula.hardLoop] at h
    obtain ⟨f', hsplit, hrest⟩ := except_bind_ok h
    obtain ⟨hne, hsoft, -, -, hhard, -⟩ := hard_to_len_3_elim _ _ _ hsplit
    have hf' : Hard3 f' := by
      intro d hd
      rw [hhard] at hd
      rcases List.mem_append.mp hd with hd | hd
      · exact hf d hd
      · exact splitGen_length3 _ _ hne d hd
    have := ih _ _ hf' hrest
    rw [hsoft] at this
    exact this

theorem is_13wpm_strict_of (f : WCNFFormula)
    (hs : ∀ p ∈ f.soft, p.2.length = 1) (hh : ∀ c ∈ f.hard, c.length = 3) :
    f.is_13wpm true = true := by
  unfold WCNFFormula.is_13wpm
  rw [Bool.and_eq_true]
  constructor
  · rw [List.all_eq_true]
    intro p hp
    simpa using hs p hp
  · rw [List.all_eq_true]
    intro c hc
    simp [hh c hc]

/-! ## Explicit characterization of the normalizer loops

Whenever a loop of `to_13wpm` succeeds (and, for the soft loops, the soft
weights of the input are at least 1, as they are for every stored soft
clause), its output is given exactly by the corresponding `...Gen`
function. -/

theorem stageA_elim : ∀ (l : List (Int × List Int)) (f g : WCNFFormula),
    (∀ p ∈ l, 1 ≤ p.1) → WCNFFormula.stageA f l = .ok g →
    g = { f with
          num_vars := f.num_vars + stageACount l,
          hard := f.hard ++ stageAHardGen f.num_vars l,
          soft := f.soft ++ stageASoftGen f.num_vars l,
          sum_soft_weights := f.sum_soft_weights + sumWeights l } := by
  intro l
  induction l with
  | nil =>
    intro f g hw h
    simp only [WCNFFormula.stageA] at h
    rcases Except.ok.inj h with rfl
    simp [stageACount, stageAHardGen, stageASoftGen, sumWeights]
  | cons p rest ih =>
    intro f g hw h
    obtain ⟨w, lits⟩ := p
    have hw1 : 1 ≤ w := (hw (w, lits) (List.mem_cons_self _ _))
    simp only [WCNFFormula.stageA] at h
    split at h
    · rename_i hlen
      obtain ⟨f', hadd, hrest⟩ := except_bind_ok h
      obtain ⟨rfl, -⟩ := add_clause_ok_elim hadd
      rw [add_clause_raw_of_ge _ _ hw1] at hrest
      have := ih _ _ (fun q hq => hw q (List.mem_cons_of_mem _ hq)) hrest
      rw [this]
      ext1
      · simp only [stageACount, if_pos hlen]
        omega
      · simp [stageAHardGen, if_pos hlen]
      · simp [stageASoftGen, if_pos hlen]
      · simp only [sumWeights, List.map_cons, List.sum_cons]
        ring
      · rfl
    · rename_i hlen
      obtain ⟨f2, hadd2, h2⟩ := except_bind_ok h
      obtain ⟨f3, hadd3, h3⟩ := except_bind_ok h2
      obtain ⟨rfl, -⟩ := add_clause_ok_elim hadd2
      obtain ⟨rfl, -⟩ := add_clause_ok_elim hadd3
      rw [add_clause_raw_of_ge _ _ hw1] at h3
      rw [add_clause_raw_of_lt _ _ (by norm_num [TOP_WEIGHT])] at h3
      have := ih _ _ (fun q hq => hw q (List.mem_cons_of_mem _ hq)) h3
      rw [this]
      ext1
      · simp only [stageACount, if_neg hlen, WCNFFormula.new_var]
        omega
      · simp [stageAHardGen, if_neg hlen, WCNFFormula.new_var]
      · simp [stageASoftGen, if_neg hlen, WCNFFormula.new_var]
      · simp only [sumWeights, List.map_cons, List.sum_cons,
          WCNFFormula.new_var]
        ring
      · rfl

theorem add_clauses_elim : ∀ (cs : List (List Int)) (f g : WCNFFormula)
    (w : Int), w < 1 → WCNFFormula.add_clauses f cs w = .ok g →
    g = { f with hard := f.hard ++ cs } := by
  intro cs
  induction cs with
  | nil =>
    intro f g w hw h
    simp only [WCNFFormula.add_clauses] at h
    rcases Except.ok.inj h with rfl
    simp
  | cons c rest ih =>
    intro f g w hw h
    simp only [WCNFFormula.add_clauses] at h
    obtain ⟨f', hadd, hrest⟩ := except_bind_ok h
    obtain ⟨rfl, -⟩ := add_clause_ok_elim hadd
    rw [add_clause_raw_of_lt _ _ hw] at hrest
    have := ih _ _ _ hw hrest
    rw [this]
    simp

theorem copySoft_elim : ∀ (l : List (Int × List Int)) (f g : WCNFFormula),
    (∀ p ∈ l, 1 ≤ p.1) → WCNFFormula.copySoft f l = .ok g →
    g = { f with soft := f.soft ++ l,
                 sum_soft_weights := f.sum_soft_weights + sumWeights l } := by
  intro l
  induction l with
  | nil =>
    intro f g hw h
    simp only [WCNFFormula.copySoft] at h
    rcases Except.ok.inj h with rfl
    simp [sumWeights]
  | cons p rest ih =>
    intro f g hw h
    obtain ⟨w, lits⟩ := p
    simp only [WCNFFormula.copySoft] at h
    obtain ⟨f', hadd, hrest⟩ := except_bind_ok h
    obtain ⟨rfl, -⟩ := add_clause_ok_elim hadd
    rw [add_clause_raw_of_ge _ _ (hw (w, lits) (List.mem_cons_self _ _))]
      at hrest
    have := ih _ _ (fun q hq => hw q (List.mem_cons_of_mem _ hq)) hrest
    rw [this]
    ext1
    · rfl
    · rfl
    · simp
    · simp only [sumWeights, List.map_cons, List.sum_cons]
      ring
    · rfl

theorem hardLoop_elim : ∀ (cs : List (List Int)) (f g : WCNFFormula),
    WCNFFormula.hardLoop f cs = .ok g →
    (∀ c ∈ cs, c ≠ []) ∧
    g = { f with
          num_vars := f.num_vars + splitAllCount cs,
          hard := f.hard ++ splitAllGen f.num_vars cs } := by
  intro cs
  induction cs with
  | nil =>
    intro f g h
    simp only [WCNFFormula.hardLoop] at h
    rcases Except.ok.inj h with rfl
    simp [splitAllCount, splitAllGen]
  | cons c rest ih =>
    intro f g h
    simp only [WCNFFormula.hardLoop] at h
    obtain ⟨f', hsplit, hrest⟩ := except_bind_ok h
    obtain ⟨hne, hsoft, hsum, hnvars, hhard, hheader⟩ :=
      hard_to_len_3_elim _ _ _ hsplit
    obtain ⟨hner, hg⟩ := ih _ _ hrest
    refine ⟨?_, ?_⟩
    · intro d hd
      rcases List.mem_cons.mp hd with rfl | hd
      · exact hne
      · exact hner d hd
    · rw [hg]
      ext1
      · simp only [hnvars, splitAllCount]
        omega
      · simp only [hhard, hnvars, splitAllGen, List.append_assoc]
      · simp only [hsoft]
      · simp only [hsum]
      · simp only [hheader]

theorem stageASoftGen_weights : ∀ (l : List (Int × List Int)) (n : Nat),
    (∀ p ∈ l, 1 ≤ p.1) → ∀ p ∈ stageASoftGen n l, 1 ≤ p.1 := by
  intro l
  induction l with
  | nil => intro n _ p hp; simp [stageASoftGen] at hp
  | cons q rest ih =>
    intro n hw p hp
    obtain ⟨w, lits⟩ := q
    have hw1 := hw (w, lits) (List.mem_cons_self _ _)
    have hwr := fun r hr => hw r (List.mem_cons_of_mem _ hr)
    simp only [stageASoftGen] at hp
    split at hp <;> rcases List.mem_cons.mp hp with rfl | hp
    · exact hw1
    · exact ih _ hwr p hp
    · exact hw1
    · exact ih _ hwr p hp

theorem stageASoftGen_sum : ∀ (l : List (Int × List Int)) (n : Nat),
    sumWeights (stageASoftGen n l) = sumWeights l := by
  intro l
  induction l with
  | nil => intro n; rfl
  | cons q rest ih =>
    intro n
    obtain ⟨w, lits⟩ := q
    simp only [stageASoftGen]
    split <;> simp [sumWeights, List.map_cons, List.sum_cons] <;>
      have := ih <;> simp [sumWeights] at this <;> simp [this]

/-- Full characterization of a successful run of `to_13wpm` on a formula
whose stored soft weights are at least 1: the output is exactly the
Stage-A soft clauses, and the Stage-B split of the Stage-A hard clauses
followed by the original hard clauses. -/
theorem to_13wpm_elim (F G : WCNFFormula) (hw : ∀ p ∈ F.soft, 1 ≤ p.1)
    (h : F.to_13wpm = .ok G) :
    (∀ c ∈ stageAHardGen F.num_vars F.soft ++ F.hard, c ≠ []) ∧
    G = { num_vars := F.num_vars + stageACount F.soft +
            splitAllCount (stageAHardGen F.num_vars F.soft ++ F.hard),
          hard := splitAllGen (F.num_vars + stageACount F.soft)
            (stageAHardGen F.num_vars F.soft ++ F.hard),
          soft := stageASoftGen F.num_vars F.soft,
          sum_soft_weights := sumWeights F.soft,
          header := [] } := by
  unfold WCNFFormula.to_13wpm at h
  obtain ⟨base1, hb1, h⟩ := except_bind_ok h
  obtain ⟨fSoft, hsA, h⟩ := except_bind_ok h
  obtain ⟨formula1, hacs, h⟩ := except_bind_ok h
  obtain ⟨base13, hb13, h⟩ := except_bind_ok h
  obtain ⟨fCopy, hcs, h⟩ := except_bind_ok h
  obtain ⟨formula13, hhl, h⟩ := except_bind_ok h
  rcases Except.ok.inj h with rfl
  have hbase1 : base1 = ⟨F.num_vars, [], [], 0, []⟩ := by
    unfold WCNFFormula.extend_vars WCNFFormula.empty at hb1
    rw [if_neg (by omega)] at hb1
    rcases Except.ok.inj hb1 with rfl
    ext1 <;> simp
  subst hbase1
  rw [stageA_elim _ _ _ hw hsA] at hacs
  rw [add_clauses_elim _ _ _ _ (by norm_num [TOP_WEIGHT]) hacs]
    at hb13 hcs hhl
  simp only [List.nil_append] at hb13 hcs hhl
  have hbase13 : base13 =
      ⟨F.num_vars + stageACount F.soft, [], [], 0, []⟩ := by
    unfold WCNFFormula.extend_vars WCNFFormula.empty at hb13
    rw [if_neg (by omega)] at hb13
    rcases Except.ok.inj hb13 with rfl
    ext1
    · simp
      omega
    · simp
    · simp
    · simp
    · simp
  subst hbase13
  rw [copySoft_elim _ _ _ (stageASoftGen_weights _ _ hw) hcs] at hhl
  obtain ⟨hne, hg⟩ := hardLoop_elim _ _ _ hhl
  constructor
  · exact hne
  · rw [hg]
    ext1 <;> simp [stageASoftGen_sum _ _]

theorem litsOk_mono {n m : Nat} (h : n ≤ m) {c : List Int}
    (hc : litsOk n c) : litsOk m c := by
  intro l hl
  obtain ⟨h1, h2⟩ := hc l hl
  exact ⟨h1, le_trans h2 h⟩

/-- Successful forward run of `_hard_to_len_3` on a valid nonempty
clause. -/
theorem hard_to_len_3_ok : ∀ (f : WCNFFormula) (c : List Int), c ≠ [] →
    litsOk f.num_vars c →
    f.hard_to_len_3 c =
      .ok { f with num_vars := f.num_vars + (c.length - 3),
                   hard := f.hard ++ splitGen f.num_vars c } := by
  intro f c
  induction f, c using WCNFFormula.hard_to_len_3.induct with
  | case1 f hle =>
    intro hne _
    exact absurd rfl hne
  | case2 f l ls hle =>
    intro hne hok
    rw [WCNFFormula.hard_to_len_3, if_pos hle]
    rw [add_clause_ok_of_litsOk]
    · rw [add_clause_raw_of_lt _ _ (by norm_num)]
      congr 1
      ext1
      · simp only [List.length_cons] at hle ⊢
        omega
      · rw [splitGen, if_pos hle]
        simp
      · rfl
      · rfl
      · rfl
    · intro x hx
      rcases List.mem_append.mp hx with hx | hx
      · exact hok x hx
      · have hxl := List.eq_of_mem_replicate hx
        rw [hxl]
        exact hok l (List.mem_cons_self _ _)
  | case3 f clause hle v f1 hnv ih =>
    intro hne hok
    rw [WCNFFormula.hard_to_len_3.eq_def]
    rw [if_neg hle, hnv]
    simp only []
    obtain ⟨v_eq, f1_eq⟩ : v = f.num_vars + 1 ∧
        f1 = { f with num_vars := f.num_vars + 1 } := by
      have := hnv.symm
      rw [WCNFFormula.new_var] at this
      exact ⟨congrArg Prod.fst this, congrArg Prod.snd this⟩
    subst v_eq f1_eq
    have hok1 : litsOk (f.num_vars + 1) (clause.take 2 ++
        [((f.num_vars + 1 : Nat) : Int)]) := by
      intro x hx
      rcases List.mem_append.mp hx with hx | hx
      · have := hok x (List.mem_of_mem_take hx)
        exact ⟨this.1, by omega⟩
      · rcases List.mem_singleton.mp hx with rfl
        constructor
        · omega
        · omega
    rw [add_clause_ok_of_litsOk _ _ _ hok1]
    rw [add_clause_raw_of_lt _ _ (by norm_num)]
    rw [except_ok_bind]
    have hok2 : litsOk (f.num_vars + 1)
        ((-(((f.num_vars + 1 : Nat)) : Int)) :: clause.drop 2) := by
      intro x hx
      rcases List.mem_cons.mp hx with rfl | hx
      · constructor
        · omega
        · omega
      · have := hok x (List.mem_of_mem_drop hx)
        exact ⟨this.1, by omega⟩
    refine Eq.trans
      (ih ⟨f.num_vars + 1,
          f.hard ++ [clause.take 2 ++ [((f.num_vars + 1 : Nat) : Int)]],
          f.soft, f.sum_soft_weights, f.header⟩ (by simp) hok2) ?_
    congr 1
    ext1
    · simp only [List.length_cons, List.length_drop]
      omega
    · conv_rhs => rw [splitGen]
      rw [if_neg hle]
      simp [List.append_assoc]
    · rfl
    · rfl
    · rfl

/-- C1. For every WCNF formula `F`, whenever `to_13wpm(F)` returns a
formula, that formula satisfies `is_13wpm(strict=True)`: every soft clause
of the result has exactly one literal and every hard clause of the result
has exactly three literals. -/
theorem to_13wpm_is_13wpm_strict (F G : WCNFFormula)
    (h : F.to_13wpm = .ok G) : G.is_13wpm true = true := by
  unfold WCNFFormula.to_13wpm at h
  obtain ⟨base1, hb1, h⟩ := except_bind_ok h
  obtain ⟨fSoft, hsA, h⟩ := except_bind_ok h
  obtain ⟨formula1, hacs, h⟩ := except_bind_ok h
  obtain ⟨base13, hb13, h⟩ := except_bind_ok h
  obtain ⟨fCopy, hcs, h⟩ := except_bind_ok h
  obtain ⟨formula13, hhl, h⟩ := except_bind_ok h
  rcases Except.ok.inj h with rfl
  have hbase1 : base1.soft = [] := by
    unfold WCNFFormula.extend_vars WCNFFormula.empty at hb1
    rw [if_neg (by omega)] at hb1
    rcases Except.ok.inj hb1 with rfl
    rfl
  have hSoftOk1 : SoftOk fSoft := by
    refine stageA_SoftOk _ _ _ ?_ hsA
    intro p hp
    rw [hbase1] at hp
    exact absurd hp (List.not_mem_nil p)
  obtain ⟨hsoft1, -, -⟩ :=
    add_clauses_hard_weight _ _ _ _ (by norm_num [TOP_WEIGHT]) hacs
  have hSoftOk2 : SoftOk formula1 := by
    intro p hp
    rw [hsoft1] at hp
    exact hSoftOk1 p hp
  have hbase13 : base13.soft = [] ∧ base13.hard = [] := by
    unfold WCNFFormula.extend_vars WCNFFormula.empty at hb13
    rw [if_neg (by omega)] at hb13
    rcases Except.ok.inj hb13 with rfl
    exact ⟨rfl, rfl⟩
  obtain ⟨hSoftOkC, hhardC⟩ := by
    refine copySoft_shape _ _ _ (fun p hp => hSoftOk2 p hp) ?_ hcs
    intro p hp
    rw [hbase13.1] at hp
    exact absurd hp (List.not_mem_nil p)
  have hHard3C : Hard3 fCopy := by
    intro c hc
    rw [hhardC, hbase13.2] at hc
    exact absurd hc (List.not_mem_nil c)
  obtain ⟨hHard3, hsofteq⟩ := hardLoop_Hard3 _ _ _ hHard3C hhl
  refine is_13wpm_strict_of _ ?_ hHard3
  intro p hp
  rw [hsofteq] at hp
  exact (hSoftOkC p hp).2

/-- Witness for C1: the concrete length-5 hard-clause formula normalizes
to a strictly 1,3-WPM formula. -/
theorem to_13wpm_is_13wpm_strict_witness :
    WCNFFormula.is_13wpm ⟨7, [[1, 2, 6], [-6, 3, 7], [-7, 4, 5]], [], 0, []⟩
      true = true :=
  to_13wpm_is_13wpm_strict ⟨5, [[1, 2, 3, 4, 5]], [], 0, []⟩
    ⟨7, [[1, 2, 6], [-6, 3, 7], [-7, 4, 5]], [], 0, []⟩
    (by simp [WCNFFormula.to_13wpm, WCNFFormula.extend_vars,
      WCNFFormula.empty, WCNFFormula.stageA, WCNFFormula.add_clauses,
      WCNFFormula.add_clause, WCNFFormula.check_literals,
      WCNFFormula.add_clause_raw, WCNFFormula.copySoft,
      WCNFFormula.hardLoop, WCNFFormula.hard_to_len_3,
      WCNFFormula.new_var, TOP_WEIGHT, bind, Except.bind, pure,
      Except.pure, List.replicate])

/-! ## Claim C3: splitting a length-5 hard clause -/

/-- C3 counterexample: on the formula with five variables and the single
hard clause `[1,2,3,4,5]`, `to_13wpm` produces three length-3 hard
clauses and two fresh auxiliary variables (`num_vars` goes from 5 to 7),
not two clauses sharing one fresh variable with a count increase of 1 as
the claim states. -/
theorem to_13wpm_hard5_counterexample :
    WCNFFormula.to_13wpm ⟨5, [[1, 2, 3, 4, 5]], [], 0, []⟩ =
      .ok ⟨7, [[1, 2, 6], [-6, 3, 7], [-7, 4, 5]], [], 0, []⟩ ∧
    ¬(7 = 5 + 1 ∧
      ([[1, 2, 6], [-6, 3, 7], [-7, 4, 5]] : List (List Int)).length = 2) := by
  constructor
  · simp [WCNFFormula.to_13wpm, WCNFFormula.extend_vars,
      WCNFFormula.empty, WCNFFormula.stageA, WCNFFormula.add_clauses,
      WCNFFormula.add_clause, WCNFFormula.check_literals,
      WCNFFormula.add_clause_raw, WCNFFormula.copySoft,
      WCNFFormula.hardLoop, WCNFFormula.hard_to_len_3,
      WCNFFormula.new_var, TOP_WEIGHT, bind, Except.bind, pure,
      Except.pure, List.replicate]
  · decide

/-- C3 (amended). Stage B of `to_13wpm` turns a hard clause of length 5
with valid literals into exactly three length-3 hard clauses, consecutive
clauses chained by one shared fresh auxiliary variable each, and the
variable count increases by exactly 2 on account of that clause. -/
theorem hard_to_len_3_length5 (f : WCNFFormula) (a b c d e : Int)
    (h : litsOk f.num_vars [a, b, c, d, e]) :
    f.hard_to_len_3 [a, b, c, d, e] =
      .ok { f with
            num_vars := f.num_vars + 2,
            hard := f.hard ++
              [[a, b, ((f.num_vars + 1 : Nat) : Int)],
               [-((f.num_vars + 1 : Nat) : Int), c,
                 ((f.num_vars + 2 : Nat) : Int)],
               [-((f.num_vars + 2 : Nat) : Int), d, e]] } := by
  rw [hard_to_len_3_ok f _ (by simp) h]
  congr 1
  ext1
  · simp
  · congr 1
    simp [splitGen, List.replicate]
    omega
  · rfl
  · rfl
  · rfl

/-- Witness for the amended C3 at a concrete input. -/
theorem hard_to_len_3_length5_witness :
    WCNFFormula.hard_to_len_3 ⟨5, [], [], 0, []⟩ [1, 2, 3, 4, 5] =
      .ok ⟨7, [[1, 2, 6], [-6, 3, 7], [-7, 4, 5]], [], 0, []⟩ := by
  have := hard_to_len_3_length5 ⟨5, [], [], 0, []⟩ 1 2 3 4 5 (by decide)
  simpa using this

/-! ## Claim C4: Stage A -/

/-- C4. In Stage A of `to_13wpm` (the soft-clause loop followed by the
bulk copy of the original hard clauses), the resulting soft list is
exactly `stageASoftGen`: soft clauses of length 1 copied unchanged, any
other soft clause of weight `w` and literals `L` replaced by the soft
clause `(w, [-r])` for a fresh reification variable `r`; the resulting
hard list is exactly the generated clauses `L ++ [r]` (`stageAHardGen`)
followed by all original hard clauses unchanged. -/
theorem stageA_spec (F base g h' : WCNFFormula)
    (hw : ∀ p ∈ F.soft, 1 ≤ p.1)
    (hbase : WCNFFormula.empty.extend_vars (F.num_vars : Int) = .ok base)
    (hA : WCNFFormula.stageA base F.soft = .ok g)
    (hH : g.add_clauses F.hard TOP_WEIGHT = .ok h') :
    h'.soft = stageASoftGen F.num_vars F.soft ∧
    h'.hard = stageAHardGen F.num_vars F.soft ++ F.hard ∧
    h'.num_vars = F.num_vars + stageACount F.soft := by
  have hbase' : base = ⟨F.num_vars, [], [], 0, []⟩ := by
    unfold WCNFFormula.extend_vars WCNFFormula.empty at hbase
    rw [if_neg (by omega)] at hbase
    rcases Except.ok.inj hbase with rfl
    ext1 <;> simp
  subst hbase'
  rw [stageA_elim _ _ _ hw hA] at hH
  rw [add_clauses_elim _ _ _ _ (by norm_num [TOP_WEIGHT]) hH]
  refine ⟨by simp, by simp, by simp⟩

/-- Witness for C4 at a concrete input with one unit soft clause, one
binary soft clause and one original hard clause. -/
theorem stageA_spec_witness :
    (⟨3, [[1, 2, 3], [1, 2]], [(1, [-1]), (5, [-3])], 6, []⟩ :
        WCNFFormula).soft = stageASoftGen 2 [(1, [-1]), (5, [1, 2])] ∧
    (⟨3, [[1, 2, 3], [1, 2]], [(1, [-1]), (5, [-3])], 6, []⟩ :
        WCNFFormula).hard =
      stageAHardGen 2 [(1, [-1]), (5, [1, 2])] ++ [[1, 2]] ∧
    (⟨3, [[1, 2, 3], [1, 2]], [(1, [-1]), (5, [-3])], 6, []⟩ :
        WCNFFormula).num_vars = 2 + stageACount [(1, [-1]), (5, [1, 2])] :=
  stageA_spec ⟨2, [[1, 2]], [(1, [-1]), (5, [1, 2])], 6, []⟩
    ⟨2, [], [], 0, []⟩
    ⟨3, [[1, 2, 3]], [(1, [-1]), (5, [-3])], 6, []⟩
    ⟨3, [[1, 2, 3], [1, 2]], [(1, [-1]), (5, [-3])], 6, []⟩
    (by decide)
    (by simp [WCNFFormula.extend_vars, WCNFFormula.empty])
    (by simp [WCNFFormula.stageA, WCNFFormula.add_clause,
      WCNFFormula.check_literals, WCNFFormula.add_clause_raw,
      WCNFFormula.new_var, TOP_WEIGHT, bind, Except.bind, pure,
      Except.pure])
    (by simp [WCNFFormula.add_clauses, WCNFFormula.add_clause,
      WCNFFormula.check_literals, WCNFFormula.add_clause_raw, TOP_WEIGHT,
      bind, Except.bind, pure, Except.pure])

/-! ## Claim C6: validation and effect of `add_clause` -/

/-- C6. `add_clause(literals, weight)` fails exactly when some literal is
0 or references a variable above the current `num_vars` (so on failure no
clause is stored and the weight sum is untouched — in this functional
model the input formula is simply not extended), and on success it
appends the clause to the hard list when `weight < 1` and otherwise
appends `(weight, literals)` to the soft list and adds the weight to the
cached sum. -/
theorem add_clause_spec (f : WCNFFormula) (c : List Int) (w : Int) :
    ((∃ e, f.add_clause c w = .error e) ↔
      ∃ l ∈ c, l = 0 ∨ f.num_vars < l.natAbs) ∧
    ∀ g, f.add_clause c w = .ok g →
      g = (if w < 1 then { f with hard := f.hard ++ [c] }
           else { f with soft := f.soft ++ [(w, c)],
                         sum_soft_weights := f.sum_soft_weights + w }) := by
  constructor
  · constructor
    · rintro ⟨e, he⟩
      by_contra hno
      push_neg at hno
      have hok : litsOk f.num_vars c := by
        intro l hl
        have := hno l hl
        exact ⟨this.1, by omega⟩
      rw [add_clause_ok_of_litsOk _ _ _ hok] at he
      exact Except.noConfusion he
    · rintro ⟨l, hl, hbad⟩
      cases hc : f.add_clause c w with
      | error e => exact ⟨e, rfl⟩
      | ok g =>
        obtain ⟨-, hlits⟩ := add_clause_ok_elim hc
        have := hlits l hl
        rcases hbad with rfl | hbad
        · exact absurd rfl this.1
        · omega
  · intro g hg
    obtain ⟨rfl, -⟩ := add_clause_ok_elim hg
    unfold WCNFFormula.add_clause_raw
    rfl

/-- Witness for C6: `add_clause([0], 1)` fails because of the zero
literal. -/
theorem add_clause_spec_witness :
    (∃ e, WCNFFormula.add_clause ⟨1, [], [], 0, []⟩ [0] 1 = .error e) ∧
    (∃ l ∈ ([0] : List Int), l = 0 ∨
      (⟨1, [], [], 0, []⟩ : WCNFFormula).num_vars < l.natAbs) :=
  ⟨(add_clause_spec ⟨1, [], [], 0, []⟩ [0] 1).1.mpr
      ⟨0, by simp, Or.inl rfl⟩,
    ⟨0, by simp, Or.inl rfl⟩⟩

/-! ## Claim C9: the weight dichotomy of `add_clause` -/

/-- C9. On success, `add_clause` with any weight strictly less than 1
(including strictly negative weights, not only the sentinel 0) stores the
clause as hard and leaves the soft list, the cached weight sum and hence
`top_weight` unchanged; any weight at least 1 produces a soft clause and
increases the cached sum by that weight. -/
theorem add_clause_weight_regimes (f : WCNFFormula) (c : List Int) (w : Int)
    (g : WCNFFormula) (h : f.add_clause c w = .ok g) :
    (w < 1 → g.hard = f.hard ++ [c] ∧ g.soft = f.soft ∧
      g.sum_soft_weights = f.sum_soft_weights ∧
      g.top_weight = f.top_weight) ∧
    (1 ≤ w → g.soft = f.soft ++ [(w, c)] ∧ g.hard = f.hard ∧
      g.sum_soft_weights = f.sum_soft_weights + w) := by
  obtain ⟨rfl, -⟩ := add_clause_ok_elim h
  constructor
  · intro hw
    rw [add_clause_raw_of_lt _ _ hw]
    exact ⟨rfl, rfl, rfl, rfl⟩
  · intro hw
    rw [add_clause_raw_of_ge _ _ hw]
    exact ⟨rfl, rfl, rfl⟩

/-! ## Claim C10: empty soft clauses -/

/-- C10. A soft clause with zero literals and weight `w ≥ 1` is treated
by `to_13wpm` exactly like a clause of length greater than 1 — it is
neither copied unchanged nor rejected: wherever it stands in the soft
list, Stage A allocates a fresh reification variable `r`, adds the soft
clause `[-r]` with weight `w` and the hard clause `[] ++ [r] = [r]`, and
Stage B pads `[r]` to `[r, r, r]`; a full run on a formula with one empty
soft clause returns exactly that normal form. -/
theorem to_13wpm_empty_soft (n : Nat) (w s : Int) (hdr : List (List Char))
    (hw : 1 ≤ w) :
    (∀ (m : Nat) (rest : List (Int × List Int)),
      stageASoftGen m ((w, []) :: rest) =
        (w, [-((m + 1 : Nat) : Int)]) :: stageASoftGen (m + 1) rest) ∧
    (∀ (m : Nat) (rest : List (Int × List Int)),
      stageAHardGen m ((w, []) :: rest) =
        ([] ++ [((m + 1 : Nat) : Int)]) :: stageAHardGen (m + 1) rest) ∧
    (∀ (m : Nat) (x : Int), splitGen m [x] = [[x, x, x]]) ∧
    WCNFFormula.to_13wpm ⟨n, [], [(w, [])], s, hdr⟩ =
      .ok ⟨n + 1,
        [[((n + 1 : Nat) : Int), ((n + 1 : Nat) : Int),
          ((n + 1 : Nat) : Int)]],
        [(w, [-((n + 1 : Nat) : Int)])], w, []⟩ := by
  refine ⟨?_, ?_, ?_, ?_⟩
  · intro m rest
    simp [stageASoftGen]
  · intro m rest
    simp [stageAHardGen]
  · intro m x
    rw [splitGen, if_pos (by simp)]
    simp [List.replicate]
  · have hext : ∀ m : Nat, WCNFFormula.empty.extend_vars ((m : Nat) : Int) =
        .ok ⟨m, [], [], 0, []⟩ := by
      intro m
      unfold WCNFFormula.extend_vars WCNFFormula.empty
      rw [if_neg (by omega)]
      congr 1
      ext1 <;> simp
    have hA : WCNFFormula.stageA ⟨n, [], [], 0, []⟩ [(w, [])] =
        .ok ⟨n + 1, [[((n + 1 : Nat) : Int)]],
          [(w, [-((n + 1 : Nat) : Int)])], w, []⟩ := by
      simp only [WCNFFormula.stageA]
      rw [if_neg (by simp)]
      rw [add_clause_ok_of_litsOk _ _ _ (by
        intro x hx
        simp only [List.nil_append, List.mem_singleton] at hx
        subst hx
        simp only [WCNFFormula.new_var]
        exact ⟨by omega, by omega⟩)]
      rw [add_clause_raw_of_ge _ _ hw]
      rw [except_ok_bind]
      rw [add_clause_ok_of_litsOk _ _ _ (by
        intro x hx
        simp only [List.nil_append, List.mem_singleton] at hx
        subst hx
        simp only [WCNFFormula.new_var]
        exact ⟨by omega, by omega⟩)]
      rw [add_clause_raw_of_lt _ _ (by norm_num [TOP_WEIGHT])]
      rw [except_ok_bind]
      simp only [WCNFFormula.stageA]
      congr 1
      ext1 <;> simp [WCNFFormula.new_var]
    have hC : WCNFFormula.copySoft ⟨n + 1, [], [], 0, []⟩
        [(w, [-((n + 1 : Nat) : Int)])] =
        .ok ⟨n + 1, [], [(w, [-((n + 1 : Nat) : Int)])], w, []⟩ := by
      simp only [WCNFFormula.copySoft]
      rw [add_clause_ok_of_litsOk _ _ _ (by
        intro x hx
        rcases List.mem_singleton.mp hx with rfl
        refine ⟨by omega, ?_⟩
        show (-((n + 1 : Nat) : Int)).natAbs ≤ n + 1
        omega)]
      rw [add_clause_raw_of_ge _ _ hw]
      rw [except_ok_bind]
      simp only [WCNFFormula.copySoft]
      congr 1
      ext1 <;> simp
    have hL : WCNFFormula.hardLoop
        ⟨n + 1, [], [(w, [-((n + 1 : Nat) : Int)])], w, []⟩
        [[((n + 1 : Nat) : Int)]] =
        .ok ⟨n + 1,
          [[((n + 1 : Nat) : Int), ((n + 1 : Nat) : Int),
            ((n + 1 : Nat) : Int)]],
          [(w, [-((n + 1 : Nat) : Int)])], w, []⟩ := by
      simp only [WCNFFormula.hardLoop]
      rw [hard_to_len_3_ok _ _ (by simp) (by
        intro x hx
        simp only [List.mem_singleton] at hx
        subst hx
        refine ⟨by omega, ?_⟩
        show (((n + 1 : Nat) : Int)).natAbs ≤ n + 1
        omega)]
      rw [except_ok_bind]
      simp only [WCNFFormula.hardLoop]
      congr 1
      ext1 <;> simp [splitGen, List.replicate]
    unfold WCNFFormula.to_13wpm
    rw [hext]
    rw [except_ok_bind]
    rw [hA]
    rw [except_ok_bind]
    rw [show WCNFFormula.add_clauses
        ⟨n + 1, [[((n + 1 : Nat) : Int)]],
          [(w, [-((n + 1 : Nat) : Int)])], w, []⟩ [] TOP_WEIGHT =
        .ok ⟨n + 1, [[((n + 1 : Nat) : Int)]],
          [(w, [-((n + 1 : Nat) : Int)])], w, []⟩ from rfl]
    rw [except_ok_bind]
    rw [hext]
    rw [except_ok_bind]
    rw [hC]
    rw [except_ok_bind]
    rw [hL]
    rw [except_ok_bind]
    rfl

/-- Witness for C10: the concrete run on a formula with num_vars 2 and
one empty soft clause of weight 5. -/
theorem to_13wpm_empty_soft_witness :
    WCNFFormula.to_13wpm ⟨2, [], [(5, [])], 5, []⟩ =
      .ok ⟨3, [[3, 3, 3]], [(5, [-3])], 5, []⟩ :=
  (to_13wpm_empty_soft 2 5 5 [] (by norm_num)).2.2.2

/-- Witness for C9 with the strictly negative weight -5: the clause is
stored as hard and the weight sum stays 0. -/
theorem add_clause_weight_regimes_witness :
    (⟨1, [[1]], [], 0, []⟩ : WCNFFormula).hard = [] ++ [[1]] ∧
    (⟨1, [[1]], [], 0, []⟩ : WCNFFormula).soft = [] ∧
    (⟨1, [[1]], [], 0, []⟩ : WCNFFormula).sum_soft_weights = 0 ∧
    (⟨1, [[1]], [], 0, []⟩ : WCNFFormula).top_weight =
      (⟨1, [], [], 0, []⟩ : WCNFFormula).top_weight :=
  (add_clause_weight_regimes ⟨1, [], [], 0, []⟩ [1] (-5)
      ⟨1, [[1]], [], 0, []⟩
      (by simp [WCNFFormula.add_clause, WCNFFormula.check_literals,
        WCNFFormula.add_clause_raw, bind, Except.bind, pure,
        Except.pure])).1
    (by norm_num)

/-! ## Claim C2: cost equivalence of the normalization

Satisfaction and cost are invariant under changing an assignment outside
the variables a clause mentions; the two stages preserve cost in both
directions. -/

theorem litSat_congr {σ σ' : Assignment} {l : Int} {n : Nat}
    (hb : l.natAbs ≤ n) (ha : ∀ v, v ≤ n → σ' v = σ v) :
    litSat σ' l = litSat σ l := by
  unfold litSat
  rw [ha l.natAbs hb]

theorem clauseSat_congr {σ σ' : Assignment} {c : List Int} {n : Nat}
    (hb : ∀ x ∈ c, x.natAbs ≤ n) (ha : ∀ v, v ≤ n → σ' v = σ v) :
    clauseSat σ' c = clauseSat σ c := by
  unfold clauseSat
  induction c with
  | nil => rfl
  | cons x xs ih =>
    simp only [List.any_cons]
    rw [litSat_congr (hb x (List.mem_cons_self _ _)) ha,
      ih fun y hy => hb y (List.mem_cons_of_mem _ hy)]

theorem hardSatList_congr {σ σ' : Assignment} {cs : List (List Int)}
    {n : Nat} (hb : ∀ c ∈ cs, ∀ x ∈ c, x.natAbs ≤ n)
    (ha : ∀ v, v ≤ n → σ' v = σ v) :
    hardSatList σ' cs = hardSatList σ cs := by
  unfold hardSatList
  induction cs with
  | nil => rfl
  | cons c cs ih =>
    simp only [List.all_cons]
    rw [clauseSat_congr (hb c (List.mem_cons_self _ _)) ha,
      ih fun d hd => hb d (List.mem_cons_of_mem _ hd)]

theorem costList_congr {σ σ' : Assignment} {l : List (Int × List Int)}
    {n : Nat} (hb : ∀ p ∈ l, ∀ x ∈ p.2, x.natAbs ≤ n)
    (ha : ∀ v, v ≤ n → σ' v = σ v) :
    costList σ' l = costList σ l := by
  unfold costList
  induction l with
  | nil => rfl
  | cons p rest ih =>
    simp only [List.map_cons, List.sum_cons]
    rw [clauseSat_congr (hb p (List.mem_cons_self _ _)) ha,
      ih fun q hq => hb q (List.mem_cons_of_mem _ hq)]

theorem costList_cons (σ : Assignment) (p : Int × List Int)
    (rest : List (Int × List Int)) :
    costList σ (p :: rest) =
      (if clauseSat σ p.2 then 0 else p.1) + costList σ rest := by
  unfold costList
  simp

theorem hardSatList_cons (σ : Assignment) (c : List Int)
    (cs : List (List Int)) :
    hardSatList σ (c :: cs) = (clauseSat σ c && hardSatList σ cs) := by
  unfold hardSatList
  simp

theorem hardSatList_append (σ : Assignment) (cs ds : List (List Int)) :
    hardSatList σ (cs ++ ds) = (hardSatList σ cs && hardSatList σ ds) := by
  unfold hardSatList
  simp

/-- Literal bounds of the Stage-A soft output. -/
theorem stageASoftGen_bound : ∀ (l : List (Int × List Int)) (n N : Nat),
    (∀ p ∈ l, ∀ x ∈ p.2, x.natAbs ≤ N) → N ≤ n →
    ∀ p ∈ stageASoftGen n l, ∀ x ∈ p.2,
      x.natAbs ≤ n + stageACount l := by
  intro l
  induction l with
  | nil => intro n N _ _ p hp; simp [stageASoftGen] at hp
  | cons q rest ih =>
    intro n N hb hN p hp x hx
    obtain ⟨w, lits⟩ := q
    simp only [stageASoftGen] at hp
    split at hp <;> rename_i hlen <;>
      rcases List.mem_cons.mp hp with rfl | hp
    · have := hb (w, lits) (List.mem_cons_self _ _) x hx
      simp only [stageACount, if_pos hlen]
      omega
    · have := ih n N (fun r hr => hb r (List.mem_cons_of_mem _ hr)) hN p hp
        x hx
      simp only [stageACount, if_pos hlen]
      omega
    · simp only [List.mem_singleton] at hx
      subst hx
      simp only [stageACount, if_neg hlen]
      omega
    · have := ih (n + 1) N (fun r hr => hb r (List.mem_cons_of_mem _ hr))
        (by omega) p hp x hx
      simp only [stageACount, if_neg hlen]
      omega

/-- Literal bounds of the Stage-A hard output. -/
theorem stageAHardGen_bound : ∀ (l : List (Int × List Int)) (n N : Nat),
    (∀ p ∈ l, ∀ x ∈ p.2, x.natAbs ≤ N) → N ≤ n →
    ∀ c ∈ stageAHardGen n l, ∀ x ∈ c,
      x.natAbs ≤ n + stageACount l := by
  intro l
  induction l with
  | nil => intro n N _ _ c hc; simp [stageAHardGen] at hc
  | cons q rest ih =>
    intro n N hb hN c hc x hx
    obtain ⟨w, lits⟩ := q
    simp only [stageAHardGen] at hc
    split at hc <;> rename_i hlen
    · have := ih n N (fun r hr => hb r (List.mem_cons_of_mem _ hr)) hN c hc
        x hx
      simp only [stageACount, if_pos hlen]
      omega
    · rcases List.mem_cons.mp hc with rfl | hc
      · rcases List.mem_append.mp hx with hx | hx
        · have := hb (w, lits) (List.mem_cons_self _ _) x hx
          simp only [stageACount, if_neg hlen]
          omega
        · simp only [List.mem_singleton] at hx
          subst hx
          simp only [stageACount, if_neg hlen]
          omega
      · have := ih (n + 1) N
          (fun r hr => hb r (List.mem_cons_of_mem _ hr)) (by omega) c hc
          x hx
        simp only [stageACount, if_neg hlen]
        omega

/-- Literal bounds of the Stage-B split of one clause. -/
theorem splitGen_bound : ∀ (n : Nat) (c : List Int),
    (∀ x ∈ c, x.natAbs ≤ n) →
    ∀ d ∈ splitGen n c, ∀ x ∈ d, x.natAbs ≤ n + (c.length - 3) := by
  intro n c
  induction n, c using splitGen.induct with
  | case1 n c hle =>
    intro hb d hd x hx
    rw [splitGen, if_pos hle] at hd
    rcases List.mem_singleton.mp hd with rfl
    rcases List.mem_append.mp hx with hx | hx
    · have := hb x hx
      omega
    · have hxh := List.eq_of_mem_replicate hx
      subst hxh
      rcases c with _ | ⟨c0, cr⟩
      · simp
      · have := hb c0 (List.mem_cons_self _ _)
        simp only [List.headD_cons]
        omega
  | case2 n c hle ih =>
    intro hb d hd x hx
    rw [splitGen, if_neg hle] at hd
    rcases List.mem_cons.mp hd with rfl | hd
    · rcases List.mem_append.mp hx with hx | hx
      · have := hb x (List.mem_of_mem_take hx)
        omega
      · simp only [List.mem_singleton] at hx
        subst hx
        simp only [Int.natAbs_ofNat]
        omega
    · have hb' : ∀ x ∈ (-((n + 1 : Nat) : Int)) :: c.drop 2,
          x.natAbs ≤ n + 1 := by
        intro y hy
        rcases List.mem_cons.mp hy with rfl | hy
        · omega
        · have := hb y (List.mem_of_mem_drop hy)
          omega
      have := ih hb' d hd x hx
      simp only [List.length_cons, List.length_drop] at this ⊢
      omega

/-- Literal bounds of the Stage-B split of a clause list. -/
theorem splitAllGen_bound : ∀ (cs : List (List Int)) (n : Nat),
    (∀ c ∈ cs, ∀ x ∈ c, x.natAbs ≤ n) →
    ∀ d ∈ splitAllGen n cs, ∀ x ∈ d, x.natAbs ≤ n + splitAllCount cs := by
  intro cs
  induction cs with
  | nil => intro n _ d hd; simp [splitAllGen] at hd
  | cons c rest ih =>
    intro n hb d hd x hx
    simp only [splitAllGen] at hd
    rcases List.mem_append.mp hd with hd | hd
    · have := splitGen_bound n c (hb c (List.mem_cons_self _ _)) d hd x hx
      simp only [splitAllCount]
      omega
    · have := ih (n + (c.length - 3))
        (fun e he y hy => le_trans
          (hb e (List.mem_cons_of_mem _ he) y hy) (by omega)) d hd x hx
      simp only [splitAllCount]
      omega

theorem clauseSat_singleton (σ : Assignment) (x : Int) :
    clauseSat σ [x] = litSat σ x := by
  unfold clauseSat
  simp

theorem litSat_pos_var (σ : Assignment) (m : Nat) :
    litSat σ (((m + 1 : Nat)) : Int) = σ (m + 1) := by
  unfold litSat
  rw [if_pos (by exact_mod_cast Nat.succ_pos m)]
  have h : ((((m + 1 : Nat)) : Int)).natAbs = m + 1 := by omega
  rw [h]

theorem litSat_neg_var (σ : Assignment) (m : Nat) :
    litSat σ (-(((m + 1 : Nat)) : Int)) = !σ (m + 1) := by
  unfold litSat
  rw [if_neg (by omega)]
  have h : (-(((m + 1 : Nat)) : Int)).natAbs = m + 1 := by omega
  rw [h]

/-- Stage-A soundness: under any assignment satisfying the generated hard
clauses, the original soft cost is at most the generated soft cost. -/
theorem stageA_sound : ∀ (l : List (Int × List Int)) (n : Nat)
    (σ : Assignment), (∀ p ∈ l, 0 ≤ p.1) →
    hardSatList σ (stageAHardGen n l) = true →
    costList σ l ≤ costList σ (stageASoftGen n l) := by
  intro l
  induction l with
  | nil => intro n σ _ _; exact le_refl _
  | cons q rest ih =>
    intro n σ hw hsat
    obtain ⟨w, lits⟩ := q
    by_cases hlen : lits.length = 1
    · simp only [stageAHardGen, if_pos hlen] at hsat
      simp only [stageASoftGen, if_pos hlen]
      rw [costList_cons, costList_cons]
      exact add_le_add_left
        (ih n σ (fun r hr => hw r (List.mem_cons_of_mem _ hr)) hsat) _
    · simp only [stageAHardGen, if_neg hlen] at hsat
      simp only [stageASoftGen, if_neg hlen]
      rw [hardSatList_cons, Bool.and_eq_true] at hsat
      obtain ⟨hclause, hrest⟩ := hsat
      rw [costList_cons, costList_cons]
      have hw1 : (0 : Int) ≤ w := hw (w, lits) (List.mem_cons_self _ _)
      refine add_le_add ?_
        (ih (n + 1) σ (fun r hr => hw r (List.mem_cons_of_mem _ hr)) hrest)
      by_cases hs : clauseSat σ lits = true
      · rw [if_pos hs]
        split <;> omega
      · rw [if_neg hs]
        have hvar : σ (n + 1) = true := by
          unfold clauseSat at hclause hs
          rw [List.any_append] at hclause
          rcases (Bool.or_eq_true _ _).mp hclause with h | h
          · exact absurd h hs
          · simp only [List.any_cons, List.any_nil, Bool.or_false] at h
            rw [litSat_pos_var] at h
            exact h
        have hfalse : clauseSat σ [-(((n + 1 : Nat)) : Int)] = false := by
          rw [clauseSat_singleton, litSat_neg_var, hvar]
          rfl
        rw [hfalse]
        simp

/-- Stage-A completeness: any assignment of the original variables
extends to the reification variables so that all generated hard clauses
hold and the generated soft cost equals the original soft cost. -/
theorem stageA_complete : ∀ (l : List (Int × List Int)) (n N : Nat)
    (σ : Assignment), (∀ p ∈ l, ∀ x ∈ p.2, x.natAbs ≤ N) → N ≤ n →
    ∃ σ' : Assignment, (∀ v, v ≤ n → σ' v = σ v) ∧
      costList σ' (stageASoftGen n l) = costList σ l ∧
      hardSatList σ' (stageAHardGen n l) = true := by
  intro l
  induction l with
  | nil =>
    intro n N σ _ _
    exact ⟨σ, fun v _ => rfl, rfl, rfl⟩
  | cons q rest ih =>
    intro n N σ hb hN
    obtain ⟨w, lits⟩ := q
    by_cases hlen : lits.length = 1
    · obtain ⟨σ', ha, hc, hs⟩ :=
        ih n N σ (fun r hr => hb r (List.mem_cons_of_mem _ hr)) hN
      refine ⟨σ', ha, ?_, ?_⟩
      · simp only [stageASoftGen, if_pos hlen]
        rw [costList_cons, costList_cons, hc]
        rw [show clauseSat σ' lits = clauseSat σ lits from
          clauseSat_congr (fun x hx => le_trans
            (hb (w, lits) (List.mem_cons_self _ _) x hx) hN) ha]
      · simp only [stageAHardGen, if_pos hlen]
        exact hs
    · have hblits := hb (w, lits) (List.mem_cons_self _ _)
      obtain ⟨σ', ha, hc, hs⟩ :=
        ih (n + 1) N
          (fun v => if v = n + 1 then !clauseSat σ lits else σ v)
          (fun r hr => hb r (List.mem_cons_of_mem _ hr)) (by omega)
      have ha' : ∀ v, v ≤ n → σ' v = σ v := by
        intro v hv
        rw [ha v (by omega)]
        rw [if_neg (by omega)]
      have hσn1 : σ' (n + 1) = !clauseSat σ lits := by
        rw [ha (n + 1) (le_refl _)]
        rw [if_pos rfl]
      have hlitseq : clauseSat σ' lits = clauseSat σ lits :=
        clauseSat_congr (fun x hx => le_trans (hblits x hx) hN) ha'
      have hcr : costList
          (fun v => if v = n + 1 then !clauseSat σ lits else σ v) rest =
          costList σ rest :=
        costList_congr
          (fun p hp x hx =>
            le_trans (hb p (List.mem_cons_of_mem _ hp) x hx) hN)
          (fun v hv => by rw [if_neg (by omega)])
      refine ⟨σ', ha', ?_, ?_⟩
      · simp only [stageASoftGen, if_neg hlen]
        rw [costList_cons, costList_cons, hc, hcr]
        rw [clauseSat_singleton, litSat_neg_var, hσn1, Bool.not_not]
      · simp only [stageAHardGen, if_neg hlen]
        rw [hardSatList_cons, Bool.and_eq_true]
        refine ⟨?_, hs⟩
        unfold clauseSat
        rw [List.any_append]
        by_cases hbv : clauseSat σ lits = true
        · have hany : lits.any (litSat σ') = true := hlitseq.trans hbv
          simp [hany]
        · have hA : litSat σ' (((n + 1 : Nat)) : Int) = true := by
            rw [litSat_pos_var, hσn1, Bool.eq_false_iff.mpr hbv]
            rfl
          have h2 : ([(((n + 1 : Nat)) : Int)].any (litSat σ')) = true := by
            simp only [List.any_cons, List.any_nil, Bool.or_false]
            exact hA
          rw [h2, Bool.or_true]


/-- Stage-B soundness for one clause: an assignment satisfying the split
clauses satisfies the original clause. -/
theorem splitGen_sound : ∀ (n : Nat) (c : List Int), c ≠ [] →
    ∀ σ : Assignment, hardSatList σ (splitGen n c) = true →
    clauseSat σ c = true := by
  intro n c
  induction n, c using splitGen.induct with
  | case1 n c hle =>
    intro hne σ hsat
    rw [splitGen, if_pos hle, hardSatList_cons] at hsat
    rw [Bool.and_eq_true] at hsat
    obtain ⟨hcl, -⟩ := hsat
    unfold clauseSat at hcl ⊢
    rw [List.any_append] at hcl
    rcases (Bool.or_eq_true _ _).mp hcl with h | h
    · exact h
    · rw [List.any_eq_true] at h
      obtain ⟨x, hx, hlit⟩ := h
      have hxh := List.eq_of_mem_replicate hx
      subst hxh
      rw [List.any_eq_true]
      refine ⟨c.headD 0, ?_, hlit⟩
      rcases c with _ | ⟨c0, cr⟩
      · exact absurd rfl hne
      · simp
  | case2 n c hle ih =>
    intro hne σ hsat
    rw [splitGen, if_neg hle, hardSatList_cons, Bool.and_eq_true] at hsat
    obtain ⟨hhead, htail⟩ := hsat
    have htail' := ih (by simp) σ htail
    have hsplit : c = c.take 2 ++ c.drop 2 := (List.take_append_drop 2 c).symm
    by_cases hv : σ (n + 1) = true
    · have hdrop : (c.drop 2).any (litSat σ) = true := by
        unfold clauseSat at htail'
        rw [List.any_cons] at htail'
        rcases (Bool.or_eq_true _ _).mp htail' with h | h
        · rw [litSat_neg_var, hv] at h
          exact absurd h (by simp)
        · exact h
      unfold clauseSat
      rw [hsplit, List.any_append, hdrop, Bool.or_true]
    · have htake : (c.take 2).any (litSat σ) = true := by
        unfold clauseSat at hhead
        rw [List.any_append] at hhead
        rcases (Bool.or_eq_true _ _).mp hhead with h | h
        · exact h
        · simp only [List.any_cons, List.any_nil, Bool.or_false] at h
          rw [litSat_pos_var] at h
          exact absurd h hv
      unfold clauseSat
      rw [hsplit, List.any_append, htake, Bool.true_or]

/-- Stage-B completeness for one clause: an assignment satisfying the
original clause extends on the fresh chain variables to satisfy every
split clause. -/
theorem splitGen_complete : ∀ (n : Nat) (c : List Int),
    (∀ x ∈ c, x.natAbs ≤ n) → ∀ σ : Assignment, clauseSat σ c = true →
    ∃ σ' : Assignment, (∀ v, v ≤ n → σ' v = σ v) ∧
      hardSatList σ' (splitGen n c) = true := by
  intro n c
  induction n, c using splitGen.induct with
  | case1 n c hle =>
    intro hb σ hsat
    refine ⟨σ, fun v _ => rfl, ?_⟩
    rw [splitGen, if_pos hle, hardSatList_cons]
    have : clauseSat σ (c ++ List.replicate (3 - c.length) (c.headD 0)) =
        true := by
      unfold clauseSat at hsat ⊢
      rw [List.any_append, hsat, Bool.true_or]
    rw [this]
    rfl
  | case2 n c hle ih =>
    intro hb σ hsat
    have hb' : ∀ x ∈ (-(((n + 1 : Nat)) : Int)) :: c.drop 2,
        x.natAbs ≤ n + 1 := by
      intro y hy
      rcases List.mem_cons.mp hy with rfl | hy
      · omega
      · have := hb y (List.mem_of_mem_drop hy)
        omega
    have hsat1 : clauseSat
        (fun v => if v = n + 1 then !(c.take 2).any (litSat σ) else σ v)
        ((-(((n + 1 : Nat)) : Int)) :: c.drop 2) = true := by
      by_cases hb2 : (c.take 2).any (litSat σ) = true
      · unfold clauseSat
        rw [List.any_cons]
        have : litSat
            (fun v => if v = n + 1 then !(c.take 2).any (litSat σ) else σ v)
            (-(((n + 1 : Nat)) : Int)) = true := by
          rw [litSat_neg_var]
          rw [if_pos rfl, hb2]
          rfl
        rw [this, Bool.true_or]
      · have hdrop : (c.drop 2).any (litSat σ) = true := by
          unfold clauseSat at hsat
          conv_lhs at hsat => rw [← List.take_append_drop 2 c]
          rw [List.any_append] at hsat
          rcases (Bool.or_eq_true _ _).mp hsat with h | h
          · exact absurd h hb2
          · exact h
        have hdrop' : (c.drop 2).any (litSat
            (fun v => if v = n + 1 then !(c.take 2).any (litSat σ)
              else σ v)) = true := by
          have := @clauseSat_congr σ
            (fun v => if v = n + 1 then !(c.take 2).any (litSat σ)
              else σ v)
            (c.drop 2) n
            (fun x hx => hb x (List.mem_of_mem_drop hx))
            (fun v hv => if_neg (by omega))
          unfold clauseSat at this
          rw [this]
          exact hdrop
        unfold clauseSat
        rw [List.any_cons, hdrop', Bool.or_true]
    obtain ⟨σ', ha, hsp⟩ := ih hb'
      (fun v => if v = n + 1 then !(c.take 2).any (litSat σ) else σ v)
      hsat1
    have ha' : ∀ v, v ≤ n → σ' v = σ v := by
      intro v hv
      rw [ha v (by omega)]
      rw [if_neg (by omega)]
    have hav : σ' (n + 1) = !(c.take 2).any (litSat σ) := by
      rw [ha (n + 1) (le_refl _)]
      rw [if_pos rfl]
    refine ⟨σ', ha', ?_⟩
    rw [splitGen, if_neg hle, hardSatList_cons, Bool.and_eq_true]
    refine ⟨?_, hsp⟩
    unfold clauseSat
    rw [List.any_append]
    by_cases hb2 : (c.take 2).any (litSat σ) = true
    · have htake' : (c.take 2).any (litSat σ') = true := by
        have := @clauseSat_congr σ σ' (c.take 2)
          n (fun x hx => hb x (List.mem_of_mem_take hx)) ha'
        unfold clauseSat at this
        rw [this]
        exact hb2
      rw [htake', Bool.true_or]
    · have hvar : litSat σ' (((n + 1 : Nat)) : Int) = true := by
        rw [litSat_pos_var, hav, Bool.eq_false_iff.mpr hb2]
        rfl
      have h2 : ([(((n + 1 : Nat)) : Int)].any (litSat σ')) = true := by
        simp only [List.any_cons, List.any_nil, Bool.or_false]
        exact hvar
      rw [h2, Bool.or_true]

/-- Stage-B soundness for a clause list. -/
theorem splitAllGen_sound : ∀ (cs : List (List Int)) (n : Nat),
    (∀ c ∈ cs, c ≠ []) → ∀ σ : Assignment,
    hardSatList σ (splitAllGen n cs) = true → hardSatList σ cs = true := by
  intro cs
  induction cs with
  | nil => intro n _ σ _; rfl
  | cons c rest ih =>
    intro n hne σ hsat
    simp only [splitAllGen] at hsat
    rw [hardSatList_append, Bool.and_eq_true] at hsat
    obtain ⟨h1, h2⟩ := hsat
    rw [hardSatList_cons, Bool.and_eq_true]
    exact ⟨splitGen_sound n c (hne c (List.mem_cons_self _ _)) σ h1,
      ih _ (fun d hd => hne d (List.mem_cons_of_mem _ hd)) σ h2⟩

/-- Stage-B completeness for a clause list. -/
theorem splitAllGen_complete : ∀ (cs : List (List Int)) (n : Nat),
    (∀ c ∈ cs, ∀ x ∈ c, x.natAbs ≤ n) → ∀ σ : Assignment,
    hardSatList σ cs = true →
    ∃ σ' : Assignment, (∀ v, v ≤ n → σ' v = σ v) ∧
      hardSatList σ' (splitAllGen n cs) = true := by
  intro cs
  induction cs with
  | nil =>
    intro n _ σ _
    exact ⟨σ, fun v _ => rfl, rfl⟩
  | cons c rest ih =>
    intro n hb σ hsat
    rw [hardSatList_cons, Bool.and_eq_true] at hsat
    obtain ⟨hc, hrest⟩ := hsat
    obtain ⟨σ1, ha1, hsp1⟩ :=
      splitGen_complete n c (hb c (List.mem_cons_self _ _)) σ hc
    have hrest1 : hardSatList σ1 rest = true := by
      rw [hardSatList_congr
        (fun d hd x hx => hb d (List.mem_cons_of_mem _ hd) x hx) ha1]
      exact hrest
    obtain ⟨σ2, ha2, hsp2⟩ := ih (n + (c.length - 3))
      (fun d hd x hx =>
        le_trans (hb d (List.mem_cons_of_mem _ hd) x hx) (by omega))
      σ1 hrest1
    refine ⟨σ2, ?_, ?_⟩
    · intro v hv
      rw [ha2 v (by omega), ha1 v hv]
    · simp only [splitAllGen]
      rw [hardSatList_append, Bool.and_eq_true]
      refine ⟨?_, hsp2⟩
      rw [hardSatList_congr
        (splitGen_bound n c (hb c (List.mem_cons_self _ _))) ha2]
      exact hsp1


/-- C2. A successful normalization has the same optimal cost as its
input: every assignment of the input's original variables extends over
the auxiliary variables to an assignment of the output with exactly the
same violated-soft-weight cost (satisfying the output's hard clauses
whenever the input's hard clauses were satisfied), and conversely every
assignment satisfying the output's hard clauses also satisfies the
input's hard clauses with input cost at most output cost — so no
assignment of the output achieves a cost lower than the input's optimum. -/
theorem to_13wpm_cost_equivalence (F G : WCNFFormula)
    (hinv : F.LitInv) (hw : ∀ p ∈ F.soft, 1 ≤ p.1)
    (hok : F.to_13wpm = .ok G) :
    (∀ σ : Assignment, ∃ τ : Assignment,
      (∀ v, v ≤ F.num_vars → τ v = σ v) ∧
      G.cost τ = F.cost σ ∧
      (F.hardSat σ = true → G.hardSat τ = true)) ∧
    (∀ τ : Assignment, G.hardSat τ = true →
      F.hardSat τ = true ∧ F.cost τ ≤ G.cost τ) := by
  obtain ⟨hne, hG⟩ := to_13wpm_elim F G hw hok
  subst hG
  have boundsSoft : ∀ p ∈ F.soft, ∀ x ∈ p.2, x.natAbs ≤ F.num_vars :=
    fun p hp x hx => (hinv.2 p hp x hx).2
  have boundsHard : ∀ c ∈ F.hard, ∀ x ∈ c, x.natAbs ≤ F.num_vars :=
    fun c hc x hx => (hinv.1 c hc x hx).2
  have genHardBound := stageAHardGen_bound F.soft F.num_vars F.num_vars
    boundsSoft (le_refl _)
  have genSoftBound := stageASoftGen_bound F.soft F.num_vars F.num_vars
    boundsSoft (le_refl _)
  have H1Bound : ∀ c ∈ stageAHardGen F.num_vars F.soft ++ F.hard,
      ∀ x ∈ c, x.natAbs ≤ F.num_vars + stageACount F.soft := by
    intro c hc x hx
    rcases List.mem_append.mp hc with hc | hc
    · exact genHardBound c hc x hx
    · exact le_trans (boundsHard c hc x hx) (by omega)
  constructor
  · intro σ
    obtain ⟨σA, haA, hcA, hsA⟩ :=
      stageA_complete F.soft F.num_vars F.num_vars σ boundsSoft (le_refl _)
    have hFhardA : hardSatList σA F.hard = hardSatList σ F.hard :=
      hardSatList_congr boundsHard haA
    by_cases hh : hardSatList σA
        (stageAHardGen F.num_vars F.soft ++ F.hard) = true
    · obtain ⟨σB, haB, hsB⟩ := splitAllGen_complete
        (stageAHardGen F.num_vars F.soft ++ F.hard)
        (F.num_vars + stageACount F.soft) H1Bound σA hh
      refine ⟨σB, ?_, ?_, ?_⟩
      · intro v hv
        rw [haB v (by omega), haA v hv]
      · show costList σB (stageASoftGen F.num_vars F.soft) = F.cost σ
        rw [costList_congr genSoftBound haB]
        exact hcA
      · intro _
        exact hsB
    · refine ⟨σA, haA, hcA, ?_⟩
      intro hFs
      exfalso
      apply hh
      rw [hardSatList_append, Bool.and_eq_true]
      exact ⟨hsA, hFhardA.trans hFs⟩
  · intro τ hGs
    have hH1 : hardSatList τ
        (stageAHardGen F.num_vars F.soft ++ F.hard) = true :=
      splitAllGen_sound _ _ hne τ hGs
    rw [hardSatList_append, Bool.and_eq_true] at hH1
    obtain ⟨hgen, hFh⟩ := hH1
    refine ⟨hFh, ?_⟩
    exact stageA_sound F.soft F.num_vars τ
      (fun p hp => le_trans zero_le_one (hw p hp)) hgen


/-- Witness for C2 at the specification's concrete scenario
(`num_vars = 2`, hard `[1,2]`, soft `(1,[-1])` and `(1,[-2])`). -/
theorem to_13wpm_cost_equivalence_witness :
    (∀ σ : Assignment, ∃ τ : Assignment,
      (∀ v, v ≤ (2 : Nat) → τ v = σ v) ∧
      (⟨2, [[1, 2, 1]], [(1, [-1]), (1, [-2])], 2, []⟩ :
          WCNFFormula).cost τ =
        (⟨2, [[1, 2]], [(1, [-1]), (1, [-2])], 2, []⟩ :
          WCNFFormula).cost σ ∧
      ((⟨2, [[1, 2]], [(1, [-1]), (1, [-2])], 2, []⟩ :
          WCNFFormula).hardSat σ = true →
        (⟨2, [[1, 2, 1]], [(1, [-1]), (1, [-2])], 2, []⟩ :
          WCNFFormula).hardSat τ = true)) ∧
    (∀ τ : Assignment,
      (⟨2, [[1, 2, 1]], [(1, [-1]), (1, [-2])], 2, []⟩ :
          WCNFFormula).hardSat τ = true →
      (⟨2, [[1, 2]], [(1, [-1]), (1, [-2])], 2, []⟩ :
          WCNFFormula).hardSat τ = true ∧
      (⟨2, [[1, 2]], [(1, [-1]), (1, [-2])], 2, []⟩ :
          WCNFFormula).cost τ ≤
        (⟨2, [[1, 2, 1]], [(1, [-1]), (1, [-2])], 2, []⟩ :
          WCNFFormula).cost τ) :=
  to_13wpm_cost_equivalence
    ⟨2, [[1, 2]], [(1, [-1]), (1, [-2])], 2, []⟩
    ⟨2, [[1, 2, 1]], [(1, [-1]), (1, [-2])], 2, []⟩
    (by decide) (by decide)
    (by simp [WCNFFormula.to_13wpm, WCNFFormula.extend_vars,
      WCNFFormula.empty, WCNFFormula.stageA, WCNFFormula.add_clauses,
      WCNFFormula.add_clause, WCNFFormula.check_literals,
      WCNFFormula.add_clause_raw, WCNFFormula.copySoft,
      WCNFFormula.hardLoop, WCNFFormula.hard_to_len_3,
      WCNFFormula.new_var, TOP_WEIGHT, bind, Except.bind, pure,
      Except.pure, List.replicate])


/-! ## Claim C7: the stored-literal invariant

`LitInv` — every stored literal is nonzero and references an allocated
variable — is preserved by every operation, and `num_vars` never
decreases; since it only grows, the bound at the current `num_vars`
subsumes the bound at the time each clause was stored. -/

theorem add_clause_LitInv {f g : WCNFFormula} {c : List Int} {w : Int}
    (hf : f.LitInv) (h : f.add_clause c w = .ok g) :
    g.LitInv ∧ g.num_vars = f.num_vars := by
  obtain ⟨rfl, hlits⟩ := add_clause_ok_elim h
  refine ⟨?_, add_clause_raw_num_vars _ _ _⟩
  unfold WCNFFormula.add_clause_raw
  split
  · constructor
    · intro d hd
      rcases List.mem_append.mp hd with hd | hd
      · exact hf.1 d hd
      · rcases List.mem_singleton.mp hd with rfl
        exact hlits
    · exact hf.2
  · constructor
    · exact hf.1
    · intro p hp
      rcases List.mem_append.mp hp with hp | hp
      · exact hf.2 p hp
      · rcases List.mem_singleton.mp hp with rfl
        exact hlits

theorem LitInv_grow {f : WCNFFormula} (hf : f.LitInv) {m : Nat}
    (h : f.num_vars ≤ m) :
    WCNFFormula.LitInv ⟨m, f.hard, f.soft, f.sum_soft_weights, f.header⟩ :=
  ⟨fun c hc => litsOk_mono h (hf.1 c hc),
    fun p hp => litsOk_mono h (hf.2 p hp)⟩

theorem add_clauses_LitInv : ∀ (cs : List (List Int))
    (f g : WCNFFormula) (w : Int), f.LitInv →
    f.add_clauses cs w = .ok g → g.LitInv ∧ g.num_vars = f.num_vars := by
  intro cs
  induction cs with
  | nil =>
    intro f g w hf h
    simp only [WCNFFormula.add_clauses] at h
    rcases Except.ok.inj h with rfl
    exact ⟨hf, rfl⟩
  | cons c rest ih =>
    intro f g w hf h
    simp only [WCNFFormula.add_clauses] at h
    obtain ⟨f1, h1, h2⟩ := except_bind_ok h
    obtain ⟨hf1, hn1⟩ := add_clause_LitInv hf h1
    obtain ⟨hg, hn2⟩ := ih _ _ _ hf1 h2
    exact ⟨hg, by omega⟩

theorem stageA_LitInv : ∀ (l : List (Int × List Int))
    (f g : WCNFFormula), f.LitInv → WCNFFormula.stageA f l = .ok g →
    g.LitInv ∧ f.num_vars ≤ g.num_vars := by
  intro l
  induction l with
  | nil =>
    intro f g hf h
    simp only [WCNFFormula.stageA] at h
    rcases Except.ok.inj h with rfl
    exact ⟨hf, le_refl _⟩
  | cons q rest ih =>
    intro f g hf h
    obtain ⟨w, lits⟩ := q
    simp only [WCNFFormula.stageA] at h
    split at h
    · obtain ⟨f1, h1, h2⟩ := except_bind_ok h
      obtain ⟨hf1, hn1⟩ := add_clause_LitInv hf h1
      obtain ⟨hg, hn2⟩ := ih _ _ hf1 h2
      exact ⟨hg, by omega⟩
    · obtain ⟨f2, h2, h3⟩ := except_bind_ok h
      obtain ⟨f3, h4, h5⟩ := except_bind_ok h3
      have hnv : WCNFFormula.LitInv (f.new_var).2 ∧
          (f.new_var).2.num_vars = f.num_vars + 1 :=
        ⟨LitInv_grow hf (by omega), rfl⟩
      obtain ⟨hf2, hn2⟩ := add_clause_LitInv hnv.1 h2
      obtain ⟨hf3, hn3⟩ := add_clause_LitInv hf2 h4
      obtain ⟨hg, hn4⟩ := ih _ _ hf3 h5
      refine ⟨hg, ?_⟩
      have := hnv.2
      omega

theorem copySoft_LitInv : ∀ (l : List (Int × List Int))
    (f g : WCNFFormula), f.LitInv → WCNFFormula.copySoft f l = .ok g →
    g.LitInv ∧ g.num_vars = f.num_vars := by
  intro l
  induction l with
  | nil =>
    intro f g hf h
    simp only [WCNFFormula.copySoft] at h
    rcases Except.ok.inj h with rfl
    exact ⟨hf, rfl⟩
  | cons q rest ih =>
    intro f g hf h
    obtain ⟨w, lits⟩ := q
    simp only [WCNFFormula.copySoft] at h
    obtain ⟨f1, h1, h2⟩ := except_bind_ok h
    obtain ⟨hf1, hn1⟩ := add_clause_LitInv hf h1
    obtain ⟨hg, hn2⟩ := ih _ _ hf1 h2
    exact ⟨hg, by omega⟩

theorem hard_to_len_3_LitInv : ∀ (f : WCNFFormula) (c : List Int)
    (g : WCNFFormula), f.LitInv → f.hard_to_len_3 c = .ok g →
    g.LitInv ∧ f.num_vars ≤ g.num_vars := by
  intro f c
  induction f, c using WCNFFormula.hard_to_len_3.induct with
  | case1 f hle =>
    intro g hf h
    rw [WCNFFormula.hard_to_len_3, if_pos hle] at h
    exact Except.noConfusion h
  | case2 f l ls hle =>
    intro g hf h
    rw [WCNFFormula.hard_to_len_3, if_pos hle] at h
    obtain ⟨hg, hn⟩ := add_clause_LitInv hf h
    exact ⟨hg, by omega⟩
  | case3 f clause hle v f1 hnv ih =>
    intro g hf h
    rw [WCNFFormula.hard_to_len_3.eq_def] at h
    rw [if_neg hle, hnv] at h
    simp only [] at h
    obtain ⟨f2, h2, h3⟩ := except_bind_ok h
    obtain ⟨v_eq, f1_eq⟩ : v = f.num_vars + 1 ∧
        f1 = { f with num_vars := f.num_vars + 1 } := by
      have := hnv.symm
      rw [WCNFFormula.new_var] at this
      exact ⟨congrArg Prod.fst this, congrArg Prod.snd this⟩
    subst v_eq f1_eq
    obtain ⟨hf2, hn2⟩ := add_clause_LitInv (LitInv_grow hf (by omega)) h2
    obtain ⟨hg, hn3⟩ := ih _ _ hf2 h3
    refine ⟨hg, ?_⟩
    simp only [] at hn2
    omega

theorem hardLoop_LitInv : ∀ (cs : List (List Int)) (f g : WCNFFormula),
    f.LitInv → WCNFFormula.hardLoop f cs = .ok g →
    g.LitInv ∧ f.num_vars ≤ g.num_vars := by
  intro cs
  induction cs with
  | nil =>
    intro f g hf h
    simp only [WCNFFormula.hardLoop] at h
    rcases Except.ok.inj h with rfl
    exact ⟨hf, le_refl _⟩
  | cons c rest ih =>
    intro f g hf h
    simp only [WCNFFormula.hardLoop] at h
    obtain ⟨f1, h1, h2⟩ := except_bind_ok h
    obtain ⟨hf1, hn1⟩ := hard_to_len_3_LitInv _ _ _ hf h1
    obtain ⟨hg, hn2⟩ := ih _ _ hf1 h2
    exact ⟨hg, by omega⟩

theorem extend_vars_LitInv {f g : WCNFFormula} {t : Int} (hf : f.LitInv)
    (h : f.extend_vars t = .ok g) :
    g.LitInv ∧ f.num_vars ≤ g.num_vars := by
  unfold WCNFFormula.extend_vars at h
  split at h
  · exact Except.noConfusion h
  · rcases Except.ok.inj h with rfl
    refine ⟨LitInv_grow hf (by omega), ?_⟩
    show f.num_vars ≤ f.num_vars + t.toNat
    omega

theorem to_13wpm_LitInv {f g : WCNFFormula} (h : f.to_13wpm = .ok g) :
    g.LitInv := by
  unfold WCNFFormula.to_13wpm at h
  obtain ⟨base1, hb1, h⟩ := except_bind_ok h
  obtain ⟨fSoft, hsA, h⟩ := except_bind_ok h
  obtain ⟨formula1, hacs, h⟩ := except_bind_ok h
  obtain ⟨base13, hb13, h⟩ := except_bind_ok h
  obtain ⟨fCopy, hcs, h⟩ := except_bind_ok h
  obtain ⟨formula13, hhl, h⟩ := except_bind_ok h
  rcases Except.ok.inj h with rfl
  have hempty : WCNFFormula.LitInv WCNFFormula.empty :=
    ⟨fun c hc => absurd hc (List.not_mem_nil c),
      fun p hp => absurd hp (List.not_mem_nil p)⟩
  have h1 := (extend_vars_LitInv hempty hb1).1
  have h2 := (stageA_LitInv _ _ _ h1 hsA).1
  have h3 := (add_clauses_LitInv _ _ _ _ h2 hacs).1
  have h4 := (extend_vars_LitInv hempty hb13).1
  have h5 := (copySoft_LitInv _ _ _ h4 hcs).1
  exact (hardLoop_LitInv _ _ _ h5 hhl).1

theorem autoExtend_eq : ∀ (f : WCNFFormula) (h : Nat),
    f.autoExtend h = { f with num_vars := max f.num_vars h } := by
  intro f h
  induction f, h using WCNFFormula.autoExtend.induct with
  | case1 f h hlt ih =>
    rw [WCNFFormula.autoExtend, if_pos hlt, ih]
    congr 1
    simp only []
    omega
  | case2 f h hlt =>
    rw [WCNFFormula.autoExtend, if_neg hlt]
    ext1 <;> simp only []
    omega

theorem processRuns_LitInv : ∀ (rs : List (List Int)) (top : Int)
    (f g : WCNFFormula), f.LitInv → processRuns top f rs = .ok g →
    g.LitInv ∧ f.num_vars ≤ g.num_vars := by
  intro rs
  induction rs with
  | nil =>
    intro top f g hf h
    simp only [processRuns] at h
    rcases Except.ok.inj h with rfl
    exact ⟨hf, le_refl _⟩
  | cons r rest ih =>
    intro top f g hf h
    simp only [processRuns] at h
    have step : ∀ (w : Int) (cl : List Int),
        (if cl = [] then
          (Except.error "Clause without literals" :
            Except String WCNFFormula)
        else do
          let f2 ← (f.autoExtend (highestVar cl)).add_clause cl
            (if w = top then TOP_WEIGHT else w)
          processRuns top f2 rest) = .ok g →
        g.LitInv ∧ f.num_vars ≤ g.num_vars := by
      intro w cl hh
      split at hh
      · exact Except.noConfusion hh
      · obtain ⟨f2, h2, h3⟩ := except_bind_ok hh
        have hauto : WCNFFormula.LitInv (f.autoExtend (highestVar cl)) ∧
            f.num_vars ≤ (f.autoExtend (highestVar cl)).num_vars := by
          rw [autoExtend_eq]
          refine ⟨LitInv_grow hf (by omega), ?_⟩
          show f.num_vars ≤ max f.num_vars (highestVar cl)
          omega
        obtain ⟨hf2, hn2⟩ := add_clause_LitInv hauto.1 h2
        obtain ⟨hg, hn3⟩ := ih _ _ _ hf2 h3
        refine ⟨hg, ?_⟩
        have := hauto.2
        omega
    split at h
    · rcases r with _ | ⟨w, ls⟩
      · exact Except.noConfusion h
      · obtain ⟨y, hy, h⟩ := except_bind_ok h
        rcases Except.ok.inj hy with rfl
        exact step w ls h
    · obtain ⟨y, hy, h⟩ := except_bind_ok h
      rcases Except.ok.inj hy with rfl
      exact step 1 r h

theorem parseLoop_LitInv : ∀ (lines : List (List Char))
    (fty : Option (List Char)) (nCl nV top : Int) (f : WCNFFormula)
    (out : Option (List Char) × Int × Int × Int × WCNFFormula),
    f.LitInv → parseLoop fty nCl nV top f lines = .ok out →
    out.2.2.2.2.LitInv := by
  intro lines
  induction lines with
  | nil =>
    intro fty nCl nV top f out hf h
    simp only [parseLoop] at h
    rcases Except.ok.inj h with rfl
    exact hf
  | cons l rest ih =>
    intro fty nCl nV top f out hf h
    simp only [parseLoop] at h
    split at h
    · exact Except.noConfusion h
    · split at h
      · split at h
        · split at h
          · split at h
            · obtain ⟨a, ha, h⟩ := except_bind_ok h
              obtain ⟨b, hb2, h⟩ := except_bind_ok h
              exact ih _ _ _ _ _ _ hf h
            · split at h
              · obtain ⟨a, ha, h⟩ := except_bind_ok h
                obtain ⟨b, hb2, h⟩ := except_bind_ok h
                split at h
                · obtain ⟨t, ht, h⟩ := except_bind_ok h
                  exact ih _ _ _ _ _ _ hf h
                · exact Except.noConfusion h
              · exact Except.noConfusion h
          · exact Except.noConfusion h
        · exact Except.noConfusion h
      · split at h
        · obtain ⟨values, hv, h⟩ := except_bind_ok h
          obtain ⟨f1, h1, h2⟩ := except_bind_ok h
          exact ih _ _ _ _ _ _
            (processRuns_LitInv _ _ _ _ hf h1).1 h2
        · exact Except.noConfusion h

theorem except_ite2_ok {α : Type} {p q : Prop} [Decidable p] [Decidable q]
    {e1 e2 : String} {x b : α}
    (h : (if p then Except.error e1
          else if q then Except.error e2 else pure x) = Except.ok b) :
    b = x := by
  split at h
  · exact Except.noConfusion h
  · split at h
    · exact Except.noConfusion h
    · exact (Except.ok.inj h).symm

theorem load_from_chars_LitInv {stream : List Char} {strict : Bool}
    {g : WCNFFormula} (h : load_from_chars stream strict = .ok g) :
    g.LitInv := by
  unfold load_from_chars at h
  obtain ⟨out, hout, h⟩ := except_bind_ok h
  obtain ⟨fty, nCl, nV, top, f⟩ := out
  have hInv : f.LitInv :=
    parseLoop_LitInv _ _ _ _ _ _ _
      ⟨fun c hc => absurd hc (List.not_mem_nil c),
        fun p hp => absurd hp (List.not_mem_nil p)⟩ hout
  have hg : g = f := except_ite2_ok h
  subst hg
  exact hInv

/-- C7. After every operation on a formula — `new_var`, `extend_vars`,
`add_clause`, `add_clauses`, `to_13wpm`, parsing — every stored literal
is nonzero and references a variable at most the owning formula's
`num_vars` (the invariant `LitInv`; since `num_vars` never decreases
under these operations, this subsumes the bound at the time of storage),
and `num_vars` never decreases. -/
theorem operations_preserve_invariant :
    (∀ f : WCNFFormula, f.LitInv →
      (f.new_var).2.LitInv ∧ f.num_vars ≤ (f.new_var).2.num_vars) ∧
    (∀ (f g : WCNFFormula) (t : Int), f.LitInv →
      f.extend_vars t = .ok g → g.LitInv ∧ f.num_vars ≤ g.num_vars) ∧
    (∀ (f g : WCNFFormula) (c : List Int) (w : Int), f.LitInv →
      f.add_clause c w = .ok g → g.LitInv ∧ f.num_vars ≤ g.num_vars) ∧
    (∀ (f g : WCNFFormula) (cs : List (List Int)) (w : Int), f.LitInv →
      f.add_clauses cs w = .ok g → g.LitInv ∧ f.num_vars ≤ g.num_vars) ∧
    (∀ f g : WCNFFormula, f.to_13wpm = .ok g → g.LitInv) ∧
    (∀ (stream : List Char) (strict : Bool) (g : WCNFFormula),
      load_from_chars stream strict = .ok g → g.LitInv) := by
  refine ⟨?_, ?_, ?_, ?_, ?_, ?_⟩
  · intro f hf
    exact ⟨LitInv_grow hf (by omega), Nat.le_succ f.num_vars⟩
  · intro f g t hf h
    exact extend_vars_LitInv hf h
  · intro f g c w hf h
    obtain ⟨hg, hn⟩ := add_clause_LitInv hf h
    exact ⟨hg, by omega⟩
  · intro f g cs w hf h
    obtain ⟨hg, hn⟩ := add_clauses_LitInv _ _ _ _ hf h
    exact ⟨hg, by omega⟩
  · intro f g h
    exact to_13wpm_LitInv h
  · intro stream strict g h
    exact load_from_chars_LitInv h

/-- Witness for C7: allocating a variable on the empty formula keeps the
invariant and does not decrease the variable counter. -/
theorem operations_preserve_invariant_witness :
    WCNFFormula.LitInv ⟨1, [], [], 0, []⟩ ∧ (0 : Nat) ≤ 1 :=
  operations_preserve_invariant.1 WCNFFormula.empty (by decide)


/-! ## Claim C8: zero-literal clauses in the parser -/

/-- C8 counterexample: in cnf mode, a clause line consisting of a lone
`0` — a token run that is empty before its terminating 0, i.e. a clause
with zero literals — is silently dropped by the run splitting: the parse
succeeds with no clauses instead of reporting an error. -/
theorem parser_empty_clause_counterexample :
    load_from_chars ('p' :: ' ' :: 'c' :: 'n' :: 'f' :: ' ' :: '1' ::
        ' ' :: '1' :: '\n' :: '0' :: '\n' :: []) false =
      .ok ⟨0, [], [], 0, []⟩ := by
  simp [load_from_chars, parseLoop, preprocessLines, splitNl, stripChars,
    startsWithC, splitWs, Char.isWhitespace, parseInts,
    parseInt, digitsToNat, digitsToNatAux, digitVal, rawClauses,
    processRuns, autoExtend_eq, highestVar, WCNFFormula.add_clause,
    WCNFFormula.check_literals, WCNFFormula.add_clause_raw,
    WCNFFormula.empty, TOP_WEIGHT, bind, Except.bind, pure, Except.pure]

theorem foldl_max_le_init : ∀ (c : List Int) (a : Nat),
    a ≤ c.foldl (fun a l => max a l.natAbs) a := by
  intro c
  induction c with
  | nil => intro a; exact le_refl a
  | cons x cs ih =>
    intro a
    exact le_trans (le_max_left a x.natAbs) (ih (max a x.natAbs))

theorem mem_le_foldl_max : ∀ (c : List Int) (a : Nat) (x : Int), x ∈ c →
    x.natAbs ≤ c.foldl (fun a l => max a l.natAbs) a := by
  intro c
  induction c with
  | nil => intro a x hx; exact absurd hx (List.not_mem_nil x)
  | cons y cs ih =>
    intro a x hx
    rcases List.mem_cons.mp hx with rfl | hx
    · exact le_trans (le_max_right a x.natAbs)
        (foldl_max_le_init cs (max a x.natAbs))
    · exact ih (max a y.natAbs) x hx

theorem mem_le_highestVar {c : List Int} {x : Int} (hx : x ∈ c) :
    x.natAbs ≤ highestVar c :=
  mem_le_foldl_max c 0 x hx

theorem autoExtend_litsOk (f : WCNFFormula) (c : List Int)
    (h0 : (0 : Int) ∉ c) :
    litsOk (f.autoExtend (highestVar c)).num_vars c := by
  intro x hx
  rw [autoExtend_eq]
  refine ⟨fun hz => h0 (hz ▸ hx), ?_⟩
  show x.natAbs ≤ max f.num_vars (highestVar c)
  exact le_trans (mem_le_highestVar hx) (le_max_right _ _)

/-- Processing one wcnf-mode run with at least one nonzero literal. -/
theorem processRuns_cons_wcnf (top w : Int) (c : List Int)
    (f : WCNFFormula) (rs : List (List Int)) (htop : 0 < top)
    (hne : c ≠ []) (h0 : (0 : Int) ∉ c) :
    processRuns top f ((w :: c) :: rs) =
      processRuns top ((f.autoExtend (highestVar c)).add_clause_raw c
        (if w = top then TOP_WEIGHT else w)) rs := by
  simp only [processRuns, if_pos htop, except_ok_bind]
  rw [if_neg hne]
  rw [add_clause_ok_of_litsOk _ _ _ (autoExtend_litsOk f c h0)]
  rw [except_ok_bind]

/-- Processing one cnf-mode run with nonzero literals. -/
theorem processRuns_cons_cnf (top : Int) (c : List Int)
    (f : WCNFFormula) (rs : List (List Int)) (htop : ¬ 0 < top)
    (hne : c ≠ []) (h0 : (0 : Int) ∉ c) :
    processRuns top f (c :: rs) =
      processRuns top ((f.autoExtend (highestVar c)).add_clause_raw c
        (if (1 : Int) = top then TOP_WEIGHT else 1)) rs := by
  simp only [processRuns, if_neg htop, except_ok_bind]
  rw [if_neg hne]
  rw [add_clause_ok_of_litsOk _ _ _ (autoExtend_litsOk f c h0)]
  rw [except_ok_bind]

/-- The clause-run processing errors exactly on a weighted-mode run that
has a weight but no literals. -/
theorem processRuns_error_iff : ∀ (rs : List (List Int)) (top : Int),
    (∀ r ∈ rs, r ≠ [] ∧ (0 : Int) ∉ r) → ∀ f : WCNFFormula,
    ((∃ e, processRuns top f rs = .error e) ↔
      (0 < top ∧ ∃ r ∈ rs, r.length = 1)) := by
  intro rs
  induction rs with
  | nil =>
    intro top _ f
    simp only [processRuns]
    constructor
    · rintro ⟨e, he⟩
      exact Except.noConfusion he
    · rintro ⟨-, r, hr, -⟩
      exact absurd hr (List.not_mem_nil r)
  | cons r rs ih =>
    intro top hshape f
    obtain ⟨hne, h0⟩ := hshape r (List.mem_cons_self _ _)
    have hsr := fun q hq => hshape q (List.mem_cons_of_mem _ hq)
    by_cases htop : 0 < top
    · rcases r with _ | ⟨w, ls⟩
      · exact absurd rfl hne
      · rcases ls with _ | ⟨l1, ls2⟩
        · constructor
          · intro _
            exact ⟨htop, [w], List.mem_cons_self _ _, rfl⟩
          · intro _
            refine ⟨"Clause without literals", ?_⟩
            simp only [processRuns, if_pos htop, except_ok_bind]
            rfl
        · have h0l : (0 : Int) ∉ (l1 :: ls2) := fun hc =>
            h0 (List.mem_cons_of_mem _ hc)
          rw [processRuns_cons_wcnf top w (l1 :: ls2) f rs htop
            (by simp) h0l]
          rw [ih top hsr _]
          constructor
          · rintro ⟨ht, q, hq, hlq⟩
            exact ⟨ht, q, List.mem_cons_of_mem _ hq, hlq⟩
          · rintro ⟨ht, q, hq, hlq⟩
            rcases List.mem_cons.mp hq with rfl | hq
            · simp at hlq
            · exact ⟨ht, q, hq, hlq⟩
    · rw [processRuns_cons_cnf top r f rs htop hne h0]
      rw [ih top hsr _]
      constructor
      · rintro ⟨ht, -⟩
        exact absurd ht htop
      · rintro ⟨ht, -⟩
        exact absurd ht htop

/-- Every run produced by the `groupby` splitting is nonempty and free of
zeros. -/
theorem rawClauses_shape : ∀ (values : List Int),
    ∀ r ∈ rawClauses values, r ≠ [] ∧ (0 : Int) ∉ r := by
  intro values
  induction values using rawClauses.induct with
  | case1 =>
    intro r hr
    simp [rawClauses] at hr
  | case2 vs ih =>
    intro r hr
    rw [rawClauses, if_pos rfl] at hr
    exact ih r hr
  | case3 v vs hv ih =>
    intro r hr
    rw [rawClauses, if_neg hv] at hr
    rcases List.mem_cons.mp hr with rfl | hr
    · refine ⟨by simp, ?_⟩
      intro h0
      rcases List.mem_cons.mp h0 with h0 | h0
      · exact hv h0.symm
      · have := List.mem_takeWhile_imp h0
        simp at this
    · exact ih r hr

/-- C8 (amended). The run splitting of a clause line never yields an
empty run: a run that is empty before its terminating 0 (a lone `0` or
consecutive `0`s) is dropped silently, producing neither a clause nor an
error, and runs contain no zero.  The clause processing reports an error
for a zero-literal clause exactly when the weighted preamble is in effect
(`top > 0`) and some run consists of a single token — the weight with no
literals; with an unweighted preamble the whole run is the literal list,
so a zero-literal clause never arises and no error is reported. -/
theorem parser_empty_clause_behaviour (values : List Int) (top : Int)
    (f : WCNFFormula) :
    ([] ∉ rawClauses values) ∧
    (∀ r ∈ rawClauses values, (0 : Int) ∉ r) ∧
    ((∃ e, processRuns top f (rawClauses values) = .error e) ↔
      (0 < top ∧ ∃ r ∈ rawClauses values, r.length = 1)) :=
  ⟨fun hmem => (rawClauses_shape values [] hmem).1 rfl,
    fun r hr => (rawClauses_shape values r hr).2,
    processRuns_error_iff (rawClauses values) top
      (rawClauses_shape values) f⟩



-- digit layer
theorem digitVal_digitChar (d : Nat) (h : d < 10) :
    digitVal (digitChar d) = some d := by
  interval_cases d <;> decide

theorem digitChar_props (d : Nat) (h : d < 10) :
    (digitChar d).isWhitespace = false ∧ digitChar d ≠ '-' ∧
      digitChar d ≠ '+' ∧ digitChar d ≠ 'p' ∧ digitChar d ≠ 'c' ∧
      digitChar d ≠ '\n' := by
  interval_cases d <;> decide

theorem natDigitsRev_digits : ∀ (n : Nat), ∀ c ∈ natDigitsRev n,
    ∃ d, d < 10 ∧ c = digitChar d := by
  intro n
  induction n using natDigitsRev.induct with
  | case1 n h =>
    intro c hc
    rw [natDigitsRev, dif_pos h] at hc
    rcases List.mem_singleton.mp hc with rfl
    exact ⟨n, h, rfl⟩
  | case2 n h ih =>
    intro c hc
    rw [natDigitsRev, dif_neg h] at hc
    rcases List.mem_cons.mp hc with rfl | hc
    · exact ⟨n % 10, Nat.mod_lt n (by omega), rfl⟩
    · exact ih c hc

theorem natDigitsRev_ne_nil (n : Nat) : natDigitsRev n ≠ [] := by
  rw [natDigitsRev]
  split <;> simp

theorem natToChars_ne_nil (n : Nat) : natToChars n ≠ [] := by
  unfold natToChars
  simpa using natDigitsRev_ne_nil n

theorem natToChars_digits (n : Nat) : ∀ c ∈ natToChars n,
    ∃ d, d < 10 ∧ c = digitChar d := by
  intro c hc
  exact natDigitsRev_digits n c (List.mem_reverse.mp hc)

theorem digitsToNatAux_append : ∀ (xs ys : List Char) (acc : Nat),
    digitsToNatAux acc (xs ++ ys) =
      (digitsToNatAux acc xs).bind fun a => digitsToNatAux a ys := by
  intro xs
  induction xs with
  | nil => intro ys acc; rfl
  | cons c xs ih =>
    intro ys acc
    cases h : digitVal c with
    | none => simp [digitsToNatAux, h]
    | some d => simp [digitsToNatAux, h, ih]

theorem digitsToNatAux_natToChars : ∀ (n acc : Nat),
    digitsToNatAux acc (natToChars n) =
      some (acc * 10 ^ (natDigitsRev n).length + n) := by
  intro n
  induction n using natDigitsRev.induct with
  | case1 n h =>
    intro acc
    unfold natToChars
    rw [natDigitsRev, dif_pos h]
    simp [digitsToNatAux, digitVal_digitChar n h]
    omega
  | case2 n h ih =>
    intro acc
    unfold natToChars
    rw [natDigitsRev, dif_neg h]
    rw [List.reverse_cons, digitsToNatAux_append]
    have hrec := ih acc
    unfold natToChars at hrec
    rw [hrec]
    simp only [Option.some_bind, digitsToNatAux,
      digitVal_digitChar _ (Nat.mod_lt n (by omega)), List.length_cons]
    congr 1
    rw [pow_succ, ← mul_assoc]
    generalize acc * 10 ^ (natDigitsRev (n / 10)).length = A
    omega

theorem exists_cons_natToChars (n : Nat) :
    ∃ c cs, natToChars n = c :: cs := by
  cases h : natToChars n with
  | nil => exact absurd h (natToChars_ne_nil n)
  | cons c cs => exact ⟨c, cs, rfl⟩

theorem digitsToNat_natToChars (n : Nat) :
    digitsToNat (natToChars n) = some n := by
  obtain ⟨c, cs, hc⟩ := exists_cons_natToChars n
  have h := digitsToNatAux_natToChars n 0
  rw [hc] at h ⊢
  simpa [digitsToNat] using h

theorem parseInt_natToChars (n : Nat) :
    parseInt (natToChars n) = .ok (n : Int) := by
  obtain ⟨c, cs, hc⟩ := exists_cons_natToChars n
  obtain ⟨d, hd, hcd⟩ := natToChars_digits n c (by rw [hc]; exact List.mem_cons_self _ _)
  obtain ⟨-, hm, hp, -, -, -⟩ := digitChar_props d hd
  rw [hc]
  show parseInt (c :: cs) = _
  simp only [parseInt]
  rw [if_neg (hcd ▸ hm), if_neg (hcd ▸ hp)]
  rw [← hc, digitsToNat_natToChars]

theorem parseInt_intToChars (i : Int) :
    parseInt (intToChars i) = .ok i := by
  by_cases hi : i < 0
  · rw [intToChars, if_pos hi]
    simp only [parseInt]
    rw [if_pos trivial, digitsToNat_natToChars]
    show Except.ok _ = _
    congr 1
    omega
  · rw [intToChars, if_neg hi]
    rw [parseInt_natToChars]
    congr 1
    omega

theorem intToChars_zero : intToChars 0 = ['0'] := by
  rw [intToChars, if_neg (by omega)]
  unfold natToChars
  rw [natDigitsRev, dif_pos (by omega)]
  rfl

/-- Character properties of written integer tokens: no whitespace, no
newline, and not the marker characters the parser treats specially. -/
theorem intToChars_chars (i : Int) : ∀ c ∈ intToChars i,
    c.isWhitespace = false ∧ c ≠ '\n' ∧ c ≠ 'p' ∧ c ≠ 'c' := by
  intro c hc
  rw [intToChars] at hc
  have hdig : ∀ x ∈ intToChars i, True := fun _ _ => trivial
  by_cases hi : i < 0
  · rw [if_pos hi] at hc
    rcases List.mem_cons.mp hc with rfl | hc
    · refine ⟨by decide, by decide, by decide, by decide⟩
    · obtain ⟨d, hd, rfl⟩ := natToChars_digits _ c hc
      obtain ⟨h1, -, -, h4, h5, h6⟩ := digitChar_props d hd
      exact ⟨h1, h6, h4, h5⟩
  · rw [if_neg hi] at hc
    obtain ⟨d, hd, rfl⟩ := natToChars_digits _ c hc
    obtain ⟨h1, -, -, h4, h5, h6⟩ := digitChar_props d hd
    exact ⟨h1, h6, h4, h5⟩

theorem intToChars_ne_nil (i : Int) : intToChars i ≠ [] := by
  rw [intToChars]
  split
  · simp
  · exact natToChars_ne_nil _

-- generic list helpers
theorem takeWhile_all_true {α : Type} (p : α → Bool) :
    ∀ (l : List α), (∀ x ∈ l, p x = true) → l.takeWhile p = l := by
  intro l
  induction l with
  | nil => intro _; rfl
  | cons x xs ih =>
    intro h
    rw [List.takeWhile_cons, if_pos (h x (List.mem_cons_self _ _))]
    rw [ih (fun y hy => h y (List.mem_cons_of_mem _ hy))]

theorem dropWhile_all_true {α : Type} (p : α → Bool) :
    ∀ (l : List α), (∀ x ∈ l, p x = true) → l.dropWhile p = [] := by
  intro l
  induction l with
  | nil => intro _; rfl
  | cons x xs ih =>
    intro h
    rw [List.dropWhile_cons, if_pos (h x (List.mem_cons_self _ _))]
    exact ih (fun y hy => h y (List.mem_cons_of_mem _ hy))

theorem takeWhile_append_stop {α : Type} (p : α → Bool) :
    ∀ (l : List α), (∀ x ∈ l, p x = true) → ∀ (y : α) (r : List α),
      p y = false → (l ++ y :: r).takeWhile p = l := by
  intro l
  induction l with
  | nil =>
    intro _ y r hy
    rw [List.nil_append, List.takeWhile_cons, if_neg (by simp [hy])]
  | cons x xs ih =>
    intro h y r hy
    rw [List.cons_append, List.takeWhile_cons,
      if_pos (h x (List.mem_cons_self _ _))]
    rw [ih (fun z hz => h z (List.mem_cons_of_mem _ hz)) y r hy]

theorem dropWhile_append_stop {α : Type} (p : α → Bool) :
    ∀ (l : List α), (∀ x ∈ l, p x = true) → ∀ (y : α) (r : List α),
      p y = false → (l ++ y :: r).dropWhile p = y :: r := by
  intro l
  induction l with
  | nil =>
    intro _ y r hy
    rw [List.nil_append, List.dropWhile_cons, if_neg (by simp [hy])]
  | cons x xs ih =>
    intro h y r hy
    rw [List.cons_append, List.dropWhile_cons,
      if_pos (h x (List.mem_cons_self _ _))]
    exact ih (fun z hz => h z (List.mem_cons_of_mem _ hz)) y r hy

theorem dropWhile_eq_self_of_head {α : Type} (p : α → Bool) :
    ∀ (l : List α), (∀ c, l.head? = some c → p c = false) →
      l.dropWhile p = l := by
  intro l
  cases l with
  | nil => intro _; rfl
  | cons c cs =>
    intro h
    rw [List.dropWhile_cons, if_neg (by simp [h c rfl])]

theorem dropWhile_append_singleton {α : Type} (p : α → Bool) (c : α)
    (h : p c = false) : ∀ (xs : List α),
    ∃ ys, (xs ++ [c]).dropWhile p = ys ++ [c] := by
  intro xs
  induction xs with
  | nil => exact ⟨[], by rw [List.nil_append, List.dropWhile_cons, if_neg (by simp [h])]⟩
  | cons x xs ih =>
    by_cases hx : p x = true
    · obtain ⟨ys, hys⟩ := ih
      refine ⟨ys, ?_⟩
      rw [List.cons_append, List.dropWhile_cons, if_pos hx, hys]
    · refine ⟨x :: xs, ?_⟩
      rw [List.cons_append, List.dropWhile_cons,
        if_neg (by simpa using hx)]

theorem head?_append_left {α : Type} (l m : List α) (h : l ≠ []) :
    (l ++ m).head? = l.head? := by
  cases l with
  | nil => exact absurd rfl h
  | cons c cs => rfl

theorem getLast?_append_right {α : Type} (l m : List α) (h : m ≠ []) :
    (l ++ m).getLast? = m.getLast? := by
  rw [← List.head?_reverse, ← List.head?_reverse]
  rw [List.reverse_append]
  exact head?_append_left _ _ (by simpa using h)

-- stripChars
theorem stripChars_id (l : List Char)
    (h1 : ∀ c, l.head? = some c → c.isWhitespace = false)
    (h2 : ∀ c, l.getLast? = some c → c.isWhitespace = false) :
    stripChars l = l := by
  unfold stripChars
  rw [dropWhile_eq_self_of_head _ l h1]
  rw [dropWhile_eq_self_of_head _ l.reverse
    (fun c hc => h2 c (by rwa [List.head?_reverse] at hc))]
  exact List.reverse_reverse l

theorem stripChars_comment (rest : List Char) :
    ∃ ys, stripChars ('c' :: rest) = 'c' :: ys := by
  unfold stripChars
  rw [dropWhile_eq_self_of_head _ ('c' :: rest)
    (by intro c hc; cases hc; decide)]
  rw [List.reverse_cons]
  obtain ⟨ys, hys⟩ := dropWhile_append_singleton Char.isWhitespace 'c'
    (by decide) rest.reverse
  rw [hys, List.reverse_append]
  exact ⟨ys.reverse, rfl⟩

-- splitWs / joinSep / splitNl
theorem splitWs_nil : splitWs [] = [] := by rw [splitWs]

theorem splitWs_word (w : List Char) (hne : w ≠ [])
    (hws : ∀ c ∈ w, c.isWhitespace = false) : splitWs w = [w] := by
  cases w with
  | nil => exact absurd rfl hne
  | cons c cs =>
    rw [splitWs]
    rw [if_neg (by simp [hws c (List.mem_cons_self _ _)])]
    rw [takeWhile_all_true _ cs
      (fun d hd => by simp [hws d (List.mem_cons_of_mem _ hd)])]
    rw [dropWhile_all_true _ cs
      (fun d hd => by simp [hws d (List.mem_cons_of_mem _ hd)])]
    rw [splitWs_nil]

theorem splitWs_ws_cons (c : Char) (hc : c.isWhitespace = true)
    (rest : List Char) : splitWs (c :: rest) = splitWs rest := by
  rw [splitWs, if_pos hc]

theorem splitWs_word_cons (w : List Char) (hne : w ≠ [])
    (hws : ∀ c ∈ w, c.isWhitespace = false) (rest : List Char) :
    splitWs (w ++ ' ' :: rest) = w :: splitWs rest := by
  cases w with
  | nil => exact absurd rfl hne
  | cons c cs =>
    rw [List.cons_append, splitWs]
    rw [if_neg (by simp [hws c (List.mem_cons_self _ _)])]
    rw [takeWhile_append_stop _ cs
      (fun d hd => by simp [hws d (List.mem_cons_of_mem _ hd)]) ' ' rest
      (by decide)]
    rw [dropWhile_append_stop _ cs
      (fun d hd => by simp [hws d (List.mem_cons_of_mem _ hd)]) ' ' rest
      (by decide)]
    rw [splitWs_ws_cons ' ' (by decide)]

theorem joinSep_cons (t : List Char) (ts : List (List Char)) (h : ts ≠ []) :
    joinSep (t :: ts) = t ++ ' ' :: joinSep ts := by
  cases ts with
  | nil => exact absurd rfl h
  | cons a as => rfl

theorem joinSep_append (xs ys : List (List Char)) (hx : xs ≠ [])
    (hy : ys ≠ []) :
    joinSep (xs ++ ys) = joinSep xs ++ ' ' :: joinSep ys := by
  induction xs with
  | nil => exact absurd rfl hx
  | cons x xs ih =>
    cases xs with
    | nil => simpa using joinSep_cons x ys hy
    | cons x2 xs2 =>
      rw [List.cons_append, joinSep_cons x (x2 :: xs2 ++ ys) (by simp),
        joinSep_cons x (x2 :: xs2) (by simp), ih (by simp)]
      simp

theorem splitWs_joinSep : ∀ (ts : List (List Char)),
    (∀ t ∈ ts, t ≠ [] ∧ ∀ c ∈ t, c.isWhitespace = false) →
    splitWs (joinSep ts) = ts := by
  intro ts
  induction ts with
  | nil => intro _; exact splitWs_nil
  | cons t ts ih =>
    intro h
    obtain ⟨hne, hws⟩ := h t (List.mem_cons_self _ _)
    cases ts with
    | nil => exact splitWs_word t hne hws
    | cons t2 ts2 =>
      rw [joinSep_cons t (t2 :: ts2) (by simp)]
      rw [splitWs_word_cons t hne hws]
      rw [ih (fun q hq => h q (List.mem_cons_of_mem _ hq))]

theorem mem_joinSep : ∀ (ts : List (List Char)) (c : Char),
    c ∈ joinSep ts → c = ' ' ∨ ∃ t ∈ ts, c ∈ t := by
  intro ts
  induction ts with
  | nil => intro c hc; exact absurd hc (List.not_mem_nil c)
  | cons t ts ih =>
    intro c hc
    cases ts with
    | nil => exact Or.inr ⟨t, List.mem_cons_self _ _, hc⟩
    | cons t2 ts2 =>
      rw [joinSep_cons t (t2 :: ts2) (by simp)] at hc
      rcases List.mem_append.mp hc with hc | hc
      · exact Or.inr ⟨t, List.mem_cons_self _ _, hc⟩
      · rcases List.mem_cons.mp hc with rfl | hc
        · exact Or.inl rfl
        · rcases ih c hc with h | ⟨q, hq, hcq⟩
          · exact Or.inl h
          · exact Or.inr ⟨q, List.mem_cons_of_mem _ hq, hcq⟩

theorem splitNl_line : ∀ (l : List Char), '\n' ∉ l → ∀ (rest : List Char),
    splitNl (l ++ '\n' :: rest) = l :: splitNl rest := by
  intro l
  induction l with
  | nil =>
    intro _ rest
    rw [List.nil_append, splitNl, if_pos rfl]
  | cons c l ih =>
    intro h rest
    have hc : ¬ c = '\n' := fun hc => h (hc ▸ List.mem_cons_self _ _)
    rw [List.cons_append, splitNl, if_neg hc]
    rw [ih (fun hm => h (List.mem_cons_of_mem _ hm)) rest]

theorem splitNl_unlines : ∀ (ls : List (List Char)),
    (∀ l ∈ ls, '\n' ∉ l) → splitNl (unlines ls) = ls ++ [[]] := by
  intro ls
  induction ls with
  | nil => intro _; rfl
  | cons l ls ih =>
    intro h
    show splitNl (l ++ '\n' :: unlines ls) = _
    rw [splitNl_line l (h l (List.mem_cons_self _ _)) _]
    rw [ih (fun x hx => h x (List.mem_cons_of_mem _ hx))]
    rfl

theorem startsWithC_false_of_head (c : Char) (cs : List Char)
    (h : c ≠ 'c') : startsWithC (c :: cs) = false := by
  rw [startsWithC.eq_def]
  split
  · next heq => rw [List.cons.injEq] at heq; exact absurd heq.1 h
  · rfl

-- writer-line structure
theorem clauseLine_flat (w : Int) (lits : List Int) (h : lits ≠ []) :
    clauseLine w lits =
      joinSep (intToChars w :: (lits.map intToChars ++ [['0']])) := by
  unfold clauseLine
  rw [joinSep_cons _ _ (by simp), joinSep_cons _ _ (by simp)]
  rw [joinSep_cons (intToChars w) (lits.map intToChars ++ [['0']])
    (by simp)]
  rw [joinSep_append (lits.map intToChars) [['0']] (by simpa) (by simp)]

theorem clauseLine_tokens_ok (w : Int) (lits : List Int) :
    ∀ t ∈ intToChars w :: (lits.map intToChars ++ [['0']]),
      t ≠ [] ∧ ∀ c ∈ t, c.isWhitespace = false := by
  intro t ht
  rcases List.mem_cons.mp ht with rfl | ht
  · exact ⟨intToChars_ne_nil w, fun c hc => (intToChars_chars w c hc).1⟩
  · rcases List.mem_append.mp ht with ht | ht
    · obtain ⟨l, -, rfl⟩ := List.mem_map.mp ht
      exact ⟨intToChars_ne_nil l, fun c hc => (intToChars_chars l c hc).1⟩
    · rcases List.mem_singleton.mp ht with rfl
      exact ⟨by simp, by decide⟩

theorem splitWs_clauseLine (w : Int) (lits : List Int) (h : lits ≠ []) :
    splitWs (clauseLine w lits) =
      intToChars w :: (lits.map intToChars ++ [['0']]) := by
  rw [clauseLine_flat w lits h]
  exact splitWs_joinSep _ (clauseLine_tokens_ok w lits)

theorem preambleLine_flat (f : WCNFFormula) :
    preambleLine f = 'p' :: ' ' :: joinSep
      [['w', 'c', 'n', 'f'], natToChars f.num_vars,
        natToChars f.num_clauses, intToChars f.top_weight] := by
  unfold preambleLine
  rw [joinSep_cons _ _ (by simp),
    joinSep_cons (['w', 'c', 'n', 'f'] : List Char) _ (by simp)]
  rfl

theorem preamble_tokens_ok (f : WCNFFormula) :
    ∀ t ∈ [(['w', 'c', 'n', 'f'] : List Char), natToChars f.num_vars,
        natToChars f.num_clauses, intToChars f.top_weight],
      t ≠ [] ∧ ∀ c ∈ t, c.isWhitespace = false := by
  intro t ht
  have hnat : ∀ n : Nat, (natToChars n ≠ []) ∧
      ∀ c ∈ natToChars n, c.isWhitespace = false := by
    intro n
    refine ⟨natToChars_ne_nil n, fun c hc => ?_⟩
    obtain ⟨d, hd, rfl⟩ := natToChars_digits n c hc
    exact (digitChar_props d hd).1
  rcases List.mem_cons.mp ht with rfl | ht
  · exact ⟨by simp, by decide⟩
  rcases List.mem_cons.mp ht with rfl | ht
  · exact hnat _
  rcases List.mem_cons.mp ht with rfl | ht
  · exact hnat _
  rcases List.mem_cons.mp ht with rfl | ht
  · exact ⟨intToChars_ne_nil _, fun c hc => (intToChars_chars _ c hc).1⟩
  · exact absurd ht (List.not_mem_nil t)

theorem splitWs_preambleLine (f : WCNFFormula) :
    splitWs (preambleLine f) =
      [['p'], ['w', 'c', 'n', 'f'], natToChars f.num_vars,
        natToChars f.num_clauses, intToChars f.top_weight] := by
  rw [preambleLine_flat f]
  have := splitWs_word_cons ['p'] (by simp) (by decide)
    (joinSep [['w', 'c', 'n', 'f'], natToChars f.num_vars,
      natToChars f.num_clauses, intToChars f.top_weight])
  simp only [List.cons_append, List.nil_append] at this
  rw [this]
  rw [splitWs_joinSep _ (preamble_tokens_ok f)]

-- head/last character facts
theorem mem_of_head?_eq {α : Type} {l : List α} {c : α}
    (h : l.head? = some c) : c ∈ l := by
  cases l with
  | nil => exact Option.noConfusion h
  | cons a as =>
    injection h with h
    exact h ▸ List.mem_cons_self _ _

theorem getLast?_cons_of_ne_nil {α : Type} (a : α) (l : List α)
    (h : l ≠ []) : (a :: l).getLast? = l.getLast? := by
  rw [← List.head?_reverse, ← List.head?_reverse, List.reverse_cons]
  exact head?_append_left _ _ (by simpa using h)

theorem intToChars_last (i : Int) :
    ∀ c, (intToChars i).getLast? = some c → c.isWhitespace = false := by
  intro c hc
  rw [← List.head?_reverse] at hc
  exact (intToChars_chars i c (List.mem_reverse.mp (mem_of_head?_eq hc))).1

theorem clauseLine_head (w : Int) (lits : List Int) (h : lits ≠ []) :
    ∀ c, (clauseLine w lits).head? = some c →
      c.isWhitespace = false ∧ c ≠ 'c' ∧ c ≠ 'p' := by
  intro c hc
  rw [clauseLine_flat w lits h, joinSep_cons _ _ (by simp),
    head?_append_left _ _ (intToChars_ne_nil w)] at hc
  obtain ⟨h1, -, h3, h4⟩ := intToChars_chars w c (mem_of_head?_eq hc)
  exact ⟨h1, h4, h3⟩

theorem clauseLine_last (w : Int) (lits : List Int) (h : lits ≠ []) :
    ∀ c, (clauseLine w lits).getLast? = some c →
      c.isWhitespace = false := by
  intro c hc
  rw [clauseLine_flat w lits h] at hc
  have hsplit : intToChars w :: (lits.map intToChars ++ [['0']]) =
      (intToChars w :: lits.map intToChars) ++ [['0']] := by simp
  rw [hsplit, joinSep_append _ _ (by simp) (by simp)] at hc
  rw [getLast?_append_right _ (' ' :: joinSep [['0']]) (by simp)] at hc
  have : (' ' :: joinSep [['0']]).getLast? = some '0' := rfl
  rw [this] at hc
  injection hc with hc
  rw [← hc]
  decide

theorem preambleLine_head (f : WCNFFormula) :
    (preambleLine f).head? = some 'p' := by
  rw [preambleLine_flat f]
  rfl

theorem preambleLine_last (f : WCNFFormula) :
    ∀ c, (preambleLine f).getLast? = some c → c.isWhitespace = false := by
  intro c hc
  rw [preambleLine_flat f] at hc
  have hsplit : ('p' :: ' ' :: joinSep
      [['w', 'c', 'n', 'f'], natToChars f.num_vars,
        natToChars f.num_clauses, intToChars f.top_weight]) =
      ['p', ' '] ++ joinSep
      ([['w', 'c', 'n', 'f'], natToChars f.num_vars,
        natToChars f.num_clauses] ++ [intToChars f.top_weight]) := rfl
  rw [hsplit] at hc
  rw [joinSep_append _ _ (by simp) (by simp)] at hc
  have hjs : joinSep [intToChars f.top_weight] = intToChars f.top_weight :=
    rfl
  rw [hjs] at hc
  rw [getLast?_append_right _ _ (by simp)] at hc
  rw [getLast?_append_right _ _ (by simp)] at hc
  rw [getLast?_cons_of_ne_nil ' ' _ (intToChars_ne_nil _)] at hc
  exact intToChars_last _ c hc

-- newline-freeness of writer lines
theorem clauseLine_no_nl (w : Int) (lits : List Int) (h : lits ≠ []) :
    '\n' ∉ clauseLine w lits := by
  rw [clauseLine_flat w lits h]
  intro hmem
  rcases mem_joinSep _ _ hmem with h' | ⟨t, ht, hct⟩
  · exact absurd h' (by decide)
  · obtain ⟨-, hws⟩ := clauseLine_tokens_ok w lits t ht
    exact absurd (hws '\n' hct) (by decide)

theorem preambleLine_no_nl (f : WCNFFormula) : '\n' ∉ preambleLine f := by
  rw [preambleLine_flat f]
  intro hmem
  rcases List.mem_cons.mp hmem with h' | hmem
  · exact absurd h' (by decide)
  rcases List.mem_cons.mp hmem with h' | hmem
  · exact absurd h' (by decide)
  rcases mem_joinSep _ _ hmem with h' | ⟨t, ht, hct⟩
  · exact absurd h' (by decide)
  · obtain ⟨-, hws⟩ := preamble_tokens_ok f t ht
    exact absurd (hws '\n' hct) (by decide)

theorem hardCaption_no_nl : '\n' ∉ hardCaption := by decide

theorem softCaption_no_nl (s : Int) : '\n' ∉ softCaption s := by
  unfold softCaption
  intro hmem
  rcases List.mem_cons.mp hmem with h' | hmem
  · exact absurd h' (by decide)
  rcases List.mem_append.mp hmem with hmem | hmem
  · rcases List.mem_append.mp hmem with hmem | hmem
    · exact absurd hmem (by decide)
    · exact absurd ((intToChars_chars s '\n' hmem).2.1) (by simp)
  · exact absurd hmem (by decide)

-- preprocessLines stepping
theorem preprocessLines_nil : preprocessLines [] = [] := rfl

theorem preprocessLines_cons_comment (l : List Char)
    (hc : ∃ ys, stripChars l = 'c' :: ys) (rest : List (List Char)) :
    preprocessLines (l :: rest) = preprocessLines rest := by
  obtain ⟨ys, hys⟩ := hc
  unfold preprocessLines
  rw [List.map_cons, List.filter_cons, hys]
  have hsw : startsWithC ('c' :: ys) = true := rfl
  rw [hsw]
  simp

theorem preprocessLines_cons_empty (rest : List (List Char)) :
    preprocessLines ([] :: rest) = preprocessLines rest := by
  unfold preprocessLines
  rw [List.map_cons, List.filter_cons]
  have : stripChars [] = [] := rfl
  rw [this]
  simp

theorem preprocessLines_cons_kept (l : List Char)
    (hid : stripChars l = l) (hne : l ≠ [])
    (hnc : startsWithC l = false) (rest : List (List Char)) :
    preprocessLines (l :: rest) = l :: preprocessLines rest := by
  unfold preprocessLines
  rw [List.map_cons, List.filter_cons, hid]
  have hie : l.isEmpty = false := by
    cases l with
    | nil => exact absurd rfl hne
    | cons a as => rfl
  rw [hie, hnc]
  simp

theorem preprocessLines_append (a b : List (List Char)) :
    preprocessLines (a ++ b) = preprocessLines a ++ preprocessLines b := by
  unfold preprocessLines
  rw [List.map_append, List.filter_append]

-- token-list parsing round trip
theorem parseInts_map : ∀ (zs : List Int),
    parseInts (zs.map intToChars) = .ok zs := by
  intro zs
  induction zs with
  | nil => rfl
  | cons z zs ih =>
    rw [List.map_cons]
    show (do
      let v ← parseInt (intToChars z)
      let vs ← parseInts (zs.map intToChars)
      pure (v :: vs)) = _
    rw [parseInt_intToChars, except_ok_bind, ih, except_ok_bind]
    rfl

theorem rawClauses_closed (l : List Int) (hne : l ≠ [])
    (h0 : (0 : Int) ∉ l) : rawClauses (l ++ [0]) = [l] := by
  cases l with
  | nil => exact absurd rfl hne
  | cons v vs =>
    rw [List.cons_append, rawClauses]
    rw [if_neg (fun hv : v = 0 => h0 (List.mem_cons.mpr (Or.inl hv.symm)))]
    have hvs : ∀ x ∈ vs, (decide ¬x = 0) = true := by
      intro x hx
      simp only [decide_not, Bool.not_eq_true', decide_eq_false_iff_not]
      exact fun h => h0 (List.mem_cons.mpr (Or.inr (h ▸ hx)))
    rw [takeWhile_append_stop _ vs hvs 0 [] (by decide)]
    rw [dropWhile_append_stop _ vs hvs 0 [] (by decide)]
    rw [rawClauses, if_pos rfl, rawClauses]

-- one clause line through the parsing loop
theorem parseLoop_clause_line (fty : List Char) (nC nV top : Int)
    (g : WCNFFormula) (w : Int) (lits : List Int)
    (rest : List (List Char)) (htop : 0 < top) (hne : lits ≠ [])
    (hnz : (0 : Int) ∉ lits) (hw : w ≠ 0) :
    parseLoop (some fty) nC nV top g (clauseLine w lits :: rest) =
      parseLoop (some fty) nC nV top
        ((g.autoExtend (highestVar lits)).add_clause_raw lits
          (if w = top then TOP_WEIGHT else w)) rest := by
  have htok : intToChars w :: (lits.map intToChars ++ [['0']]) =
      (w :: (lits ++ [0])).map intToChars := by
    simp [intToChars_zero]
  simp only [parseLoop, splitWs_clauseLine w lits hne]
  rw [if_neg (fun hand => Option.noConfusion hand.2)]
  rw [if_pos (by simp)]
  rw [htok, parseInts_map, except_ok_bind]
  have hr : rawClauses (w :: (lits ++ [0])) = [w :: lits] := by
    have : w :: (lits ++ [0]) = (w :: lits) ++ [0] := by simp
    rw [this]
    refine rawClauses_closed (w :: lits) (by simp) ?_
    intro hmem
    rcases List.mem_cons.mp hmem with h' | h'
    · exact hw h'.symm
    · exact hnz h'
  rw [hr]
  rw [processRuns_cons_wcnf top w lits g [] htop hne hnz]
  rw [show processRuns top ((g.autoExtend (highestVar lits)).add_clause_raw
    lits (if w = top then TOP_WEIGHT else w)) [] = Except.ok _ from rfl]
  rw [except_ok_bind]

-- the preamble line through the parsing loop
theorem parseLoop_preamble (f g : WCNFFormula) (nC nV top : Int)
    (rest : List (List Char)) :
    parseLoop none nC nV top g (preambleLine f :: rest) =
      parseLoop (some ['w', 'c', 'n', 'f']) (f.num_clauses : Int)
        (f.num_vars : Int) f.top_weight g rest := by
  simp only [parseLoop, splitWs_preambleLine f, parseInt_natToChars,
    parseInt_intToChars, except_ok_bind]
  rw [if_pos ⟨trivial, trivial⟩]
  rw [if_pos (by constructor <;> simp)]
  rw [if_neg (by decide)]
  rw [if_pos trivial]


theorem parseLoop_clause_lines : ∀ (cls : List (Int × List Int))
    (fty : List Char) (nC nV top : Int) (g : WCNFFormula)
    (rest : List (List Char)), 0 < top →
    (∀ p ∈ cls, p.2 ≠ [] ∧ (0 : Int) ∉ p.2 ∧ p.1 ≠ 0) →
    parseLoop (some fty) nC nV top g
        (cls.map (fun p => clauseLine p.1 p.2) ++ rest) =
      parseLoop (some fty) nC nV top (foldClauses top g cls) rest := by
  intro cls
  induction cls with
  | nil => intro fty nC nV top g rest _ _; rfl
  | cons p cls ih =>
    intro fty nC nV top g rest htop h
    obtain ⟨hne, hnz, hw⟩ := h p (List.mem_cons_self _ _)
    rw [List.map_cons, List.cons_append]
    rw [parseLoop_clause_line fty nC nV top g p.1 p.2 _ htop hne hnz hw]
    rw [ih fty nC nV top _ rest htop
      (fun q hq => h q (List.mem_cons_of_mem _ hq))]
    rfl

theorem foldClauses_hard : ∀ (hs : List (List Int)) (top : Int)
    (g : WCNFFormula),
    foldClauses top g (hs.map (fun c => (top, c))) =
      { num_vars := (hs.map highestVar).foldl max g.num_vars,
        hard := g.hard ++ hs, soft := g.soft,
        sum_soft_weights := g.sum_soft_weights, header := g.header } := by
  intro hs
  induction hs with
  | nil =>
    intro top g
    show g = _
    ext1 <;> simp
  | cons c hs ih =>
    intro top g
    rw [List.map_cons]
    show foldClauses top ((g.autoExtend (highestVar c)).add_clause_raw c
      (if top = top then TOP_WEIGHT else top)) (hs.map (fun c => (top, c))) = _
    rw [if_pos rfl]
    rw [autoExtend_eq]
    rw [add_clause_raw_of_lt _ _ (by unfold TOP_WEIGHT; omega)]
    rw [ih]
    ext1 <;> simp

theorem sumWeights_nil : sumWeights [] = 0 := rfl

theorem foldClauses_soft : ∀ (ss : List (Int × List Int)) (top : Int)
    (g : WCNFFormula), (∀ p ∈ ss, 1 ≤ p.1 ∧ p.1 ≠ top) →
    foldClauses top g ss =
      { num_vars := (ss.map (fun p => highestVar p.2)).foldl max g.num_vars,
        hard := g.hard, soft := g.soft ++ ss,
        sum_soft_weights := g.sum_soft_weights + sumWeights ss,
        header := g.header } := by
  intro ss
  induction ss with
  | nil =>
    intro top g _
    show g = _
    ext1 <;> simp [sumWeights_nil]
  | cons p ss ih =>
    intro top g h
    obtain ⟨hw1, hwt⟩ := h p (List.mem_cons_self _ _)
    show foldClauses top ((g.autoExtend (highestVar p.2)).add_clause_raw p.2
      (if p.1 = top then TOP_WEIGHT else p.1)) ss = _
    rw [if_neg hwt]
    rw [autoExtend_eq]
    rw [add_clause_raw_of_ge _ _ (by omega)]
    rw [ih top _ (fun q hq => h q (List.mem_cons_of_mem _ hq))]
    ext1 <;> simp [sumWeights, add_assoc]

-- weight-sum bounds
theorem sumWeights_nonneg : ∀ (ss : List (Int × List Int)),
    (∀ q ∈ ss, 1 ≤ q.1) → 0 ≤ sumWeights ss := by
  intro ss
  induction ss with
  | nil => intro _; exact le_refl 0
  | cons q ss ih =>
    intro h
    have h1 := h q (List.mem_cons_self _ _)
    have h2 := ih (fun r hr => h r (List.mem_cons_of_mem _ hr))
    show (0 : Int) ≤ q.1 + sumWeights ss
    omega

theorem fst_le_sumWeights : ∀ (ss : List (Int × List Int)),
    (∀ q ∈ ss, 1 ≤ q.1) → ∀ p ∈ ss, p.1 ≤ sumWeights ss := by
  intro ss
  induction ss with
  | nil => intro _ p hp; exact absurd hp (List.not_mem_nil p)
  | cons q ss ih =>
    intro h p hp
    have hq := h q (List.mem_cons_self _ _)
    have hrest := fun r hr => h r (List.mem_cons_of_mem _ hr)
    have hnn := sumWeights_nonneg ss hrest
    rcases List.mem_cons.mp hp with rfl | hp
    · show p.1 ≤ p.1 + sumWeights ss
      omega
    · have := ih hrest p hp
      show p.1 ≤ q.1 + sumWeights ss
      omega

-- startsWithC via head
theorem startsWithC_false_of_head' (l : List Char)
    (h : ∀ c, l.head? = some c → c ≠ 'c') : startsWithC l = false := by
  cases l with
  | nil => rfl
  | cons c cs => exact startsWithC_false_of_head c cs (h c rfl)

-- preprocessing of blocks of writer lines
theorem preprocessLines_header : ∀ (hs : List (List Char))
    (rest : List (List Char)),
    preprocessLines ((hs.map fun l => 'c' :: ' ' :: l) ++ rest) =
      preprocessLines rest := by
  intro hs
  induction hs with
  | nil => intro rest; rfl
  | cons hline hs ih =>
    intro rest
    rw [List.map_cons, List.cons_append]
    rw [preprocessLines_cons_comment _ (stripChars_comment _), ih]

theorem preprocessLines_clause_lines : ∀ (cls : List (Int × List Int))
    (rest : List (List Char)), (∀ p ∈ cls, p.2 ≠ []) →
    preprocessLines ((cls.map fun p => clauseLine p.1 p.2) ++ rest) =
      (cls.map fun p => clauseLine p.1 p.2) ++ preprocessLines rest := by
  intro cls
  induction cls with
  | nil => intro rest _; rfl
  | cons p cls ih =>
    intro rest h
    have hne := h p (List.mem_cons_self _ _)
    rw [List.map_cons, List.cons_append]
    rw [preprocessLines_cons_kept (clauseLine p.1 p.2)
      (stripChars_id _
        (fun c hc => (clauseLine_head p.1 p.2 hne c hc).1)
        (clauseLine_last p.1 p.2 hne))
      (by
        rw [clauseLine_flat p.1 p.2 hne, joinSep_cons _ _ (by simp)]
        simp)
      (startsWithC_false_of_head' _
        (fun c hc => (clauseLine_head p.1 p.2 hne c hc).2.1))]
    rw [ih rest (fun q hq => h q (List.mem_cons_of_mem _ hq))]
    rfl

theorem preprocessLines_preamble_kept (f : WCNFFormula)
    (rest : List (List Char)) :
    preprocessLines (preambleLine f :: rest) =
      preambleLine f :: preprocessLines rest := by
  refine preprocessLines_cons_kept _ ?_ ?_ ?_ rest
  · exact stripChars_id _
      (fun c hc => by rw [preambleLine_head f] at hc; injection hc with hc; rw [← hc]; decide)
      (preambleLine_last f)
  · rw [preambleLine_flat]; simp
  · exact startsWithC_false_of_head' _
      (fun c hc => by rw [preambleLine_head f] at hc; injection hc with hc; rw [← hc]; decide)

theorem preprocessLines_hardCaption (rest : List (List Char)) :
    preprocessLines (hardCaption :: rest) = preprocessLines rest :=
  preprocessLines_cons_comment _ (stripChars_comment _) rest

theorem preprocessLines_softCaption (s : Int) (rest : List (List Char)) :
    preprocessLines (softCaption s :: rest) = preprocessLines rest := by
  refine preprocessLines_cons_comment _ ?_ rest
  show ∃ ys, stripChars (('c' ::
    (" ===== Soft Clauses (Sum weights: ".data ++ intToChars s ++
      ") =====".data))) = 'c' :: ys
  exact stripChars_comment _

theorem load_write_eq (F : WCNFFormula) (hWf : F.Wf)
    (hhard : ∀ c ∈ F.hard, c ≠ []) (hsoft : ∀ p ∈ F.soft, p.2 ≠ [])
    (hhdr : ∀ l ∈ F.header, '\n' ∉ l) :
    load_from_chars (F.write_dimacs) false =
      .ok ⟨F.maxVar, F.hard, F.soft, F.sum_soft_weights, []⟩ := by
  obtain ⟨hinv, hw1, hsum⟩ := hWf
  have hsumW : sumWeights F.soft = F.sum_soft_weights := hsum.symm
  have hsum0 : 0 ≤ sumWeights F.soft := sumWeights_nonneg F.soft hw1
  have htop : 0 < F.top_weight := by
    unfold WCNFFormula.top_weight
    omega
  have hhard0 : ∀ c ∈ F.hard, (0 : Int) ∉ c := fun c hc h0 =>
    ((hinv.1 c hc) 0 h0).1 rfl
  have hsoft0 : ∀ p ∈ F.soft, (0 : Int) ∉ p.2 := fun p hp h0 =>
    ((hinv.2 p hp) 0 h0).1 rfl
  have hwne : ∀ p ∈ F.soft, p.1 ≠ F.top_weight := by
    intro p hp
    have h1 := fst_le_sumWeights F.soft hw1 p hp
    unfold WCNFFormula.top_weight
    omega
  -- the writer's line list and its newline-freeness
  have hlines : ∀ l ∈ (F.header.map (fun l => 'c' :: ' ' :: l) ++
      [preambleLine F, hardCaption] ++
      F.hard.map (fun c => clauseLine F.top_weight c) ++
      [softCaption F.sum_soft_weights] ++
      F.soft.map (fun p => clauseLine p.1 p.2)), '\n' ∉ l := by
    intro l hl
    simp only [List.mem_append] at hl
    rcases hl with ((((hl | hl) | hl) | hl) | hl)
    · obtain ⟨h0, hh, rfl⟩ := List.mem_map.mp hl
      intro hmem
      rcases List.mem_cons.mp hmem with h' | hmem
      · exact absurd h' (by decide)
      rcases List.mem_cons.mp hmem with h' | hmem
      · exact absurd h' (by decide)
      · exact hhdr h0 hh hmem
    · rcases List.mem_cons.mp hl with rfl | hl
      · exact preambleLine_no_nl F
      · rcases List.mem_singleton.mp hl with rfl
        exact hardCaption_no_nl
    · obtain ⟨c, hc, rfl⟩ := List.mem_map.mp hl
      exact clauseLine_no_nl _ c (hhard c hc)
    · rcases List.mem_singleton.mp hl with rfl
      exact softCaption_no_nl _
    · obtain ⟨p, hp, rfl⟩ := List.mem_map.mp hl
      exact clauseLine_no_nl _ p.2 (hsoft p hp)
  unfold load_from_chars WCNFFormula.write_dimacs
  rw [splitNl_unlines _ hlines]
  -- normalise the line list to nested conses/appends
  have hplist : (F.header.map (fun l => 'c' :: ' ' :: l) ++
      [preambleLine F, hardCaption] ++
      F.hard.map (fun c => clauseLine F.top_weight c) ++
      [softCaption F.sum_soft_weights] ++
      F.soft.map (fun p => clauseLine p.1 p.2)) ++ [[]] =
      F.header.map (fun l => 'c' :: ' ' :: l) ++
      (preambleLine F :: hardCaption ::
        (((F.hard.map (fun c => ((F.top_weight : Int), c))).map
            (fun p => clauseLine p.1 p.2)) ++
          (softCaption F.sum_soft_weights ::
            ((F.soft.map (fun p => clauseLine p.1 p.2)) ++ [[]])))) := by
    rw [List.map_map]
    simp [List.append_assoc]
  rw [hplist]
  rw [preprocessLines_header]
  rw [preprocessLines_preamble_kept]
  rw [preprocessLines_hardCaption]
  rw [preprocessLines_clause_lines _ _
    (by
      intro p hp
      obtain ⟨c, hc, rfl⟩ := List.mem_map.mp hp
      exact hhard c hc)]
  rw [preprocessLines_softCaption]
  rw [preprocessLines_clause_lines F.soft _ hsoft]
  rw [preprocessLines_cons_empty, preprocessLines_nil]
  rw [List.append_nil]
  rw [parseLoop_preamble F WCNFFormula.empty]
  rw [parseLoop_clause_lines _ _ _ _ _ _ _ htop
    (by
      intro p hp
      obtain ⟨c, hc, rfl⟩ := List.mem_map.mp hp
      exact ⟨hhard c hc, hhard0 c hc, by omega⟩)]
  have hsoftlines : (F.soft.map (fun p => clauseLine p.1 p.2)) =
      (F.soft.map (fun p => clauseLine p.1 p.2)) ++ [] := by
    rw [List.append_nil]
  rw [hsoftlines]
  rw [parseLoop_clause_lines F.soft _ _ _ _ _ _ htop
    (by
      intro p hp
      have h1 := hw1 p hp
      exact ⟨hsoft p hp, hsoft0 p hp, by omega⟩)]
  rw [show ∀ (fty : List Char) (a b c : Int) (g : WCNFFormula),
      parseLoop (some fty) a b c g [] = .ok (some fty, a, b, c, g)
    from fun _ _ _ _ _ => rfl]
  rw [except_ok_bind]
  rw [foldClauses_hard F.hard F.top_weight WCNFFormula.empty]
  rw [foldClauses_soft F.soft F.top_weight _
    (fun p hp => ⟨hw1 p hp, hwne p hp⟩)]
  have hmv : F.maxVar =
      (F.soft.map (fun p => highestVar p.2)).foldl max
        ((F.hard.map highestVar).foldl max
          (WCNFFormula.empty.num_vars)) := by
    unfold WCNFFormula.maxVar
    rw [List.map_append, List.foldl_append, List.map_map]
    rfl
  have hfe : (false = true) = False := eq_false (fun h => Bool.noConfusion h)
  simp only [hfe, false_and, if_false]
  show Except.ok _ = _
  congr 1
  ext1
  · show (F.soft.map (fun p => highestVar p.2)).foldl max
      ((F.hard.map highestVar).foldl max WCNFFormula.empty.num_vars) =
      F.maxVar
    rw [hmv]
  · show WCNFFormula.empty.hard ++ F.hard = F.hard
    simp [WCNFFormula.empty]
  · show WCNFFormula.empty.soft ++ F.soft = F.soft
    simp [WCNFFormula.empty]
  · show WCNFFormula.empty.sum_soft_weights + sumWeights F.soft =
      F.sum_soft_weights
    show (0 : Int) + sumWeights F.soft = F.sum_soft_weights
    omega
  · rfl




/-- C5 (amended). For a well-formed formula (valid stored literals, soft
weights at least 1, consistent cached weight sum) whose clauses all have
at least one literal and whose header lines contain no newline, writing
with `write_dimacs` and re-parsing the output in non-strict mode succeeds
and returns a formula with exactly the same hard-clause list, soft-clause
list and soft-weight sum, an empty header, and `num_vars` rebuilt to the
highest variable referenced by any clause (`maxVar`) — which equals the
original `num_vars` only when some clause references the highest
allocated variable. -/
theorem writer_parser_roundtrip (F : WCNFFormula) (hWf : F.Wf)
    (hhard : ∀ c ∈ F.hard, c ≠ []) (hsoft : ∀ p ∈ F.soft, p.2 ≠ [])
    (hhdr : ∀ l ∈ F.header, '\n' ∉ l) :
    load_from_chars (F.write_dimacs) false =
      .ok ⟨F.maxVar, F.hard, F.soft, F.sum_soft_weights, []⟩ :=
  load_write_eq F hWf hhard hsoft hhdr

/-- C5 witness: the amended round trip evaluated on the formula with one
variable, hard clause [1] and soft clause (2, [-1]). -/
theorem writer_parser_roundtrip_witness :
    (WCNFFormula.Wf ⟨1, [[1]], [(2, [-1])], 2, []⟩ ∧
      (∀ c ∈ [[(1 : Int)]], c ≠ []) ∧
      (∀ p ∈ [((2 : Int), [(-1 : Int)])], p.2 ≠ []) ∧
      (∀ l ∈ ([] : List (List Char)), '\n' ∉ l)) ∧
    load_from_chars
        (WCNFFormula.write_dimacs ⟨1, [[1]], [(2, [-1])], 2, []⟩) false =
      .ok ⟨1, [[1]], [(2, [-1])], 2, []⟩ := by
  refine ⟨⟨by decide, by decide, by decide, by decide⟩, ?_⟩
  have h := writer_parser_roundtrip ⟨1, [[1]], [(2, [-1])], 2, []⟩
    (by decide) (by decide) (by decide) (by decide)
  rw [h]
  rfl

/-- C5 counterexample: the formula with `num_vars = 2` whose only clause
is the hard clause [1] is well formed, but writing it and re-parsing in
non-strict mode yields a formula with `num_vars = 1`: the parser rebuilds
the variable count from the literals it sees, so a variable no clause
references is lost and the round trip does not preserve `num_vars`. -/
theorem writer_parser_roundtrip_counterexample :
    WCNFFormula.Wf ⟨2, [[1]], [], 0, []⟩ ∧
    load_from_chars
        (WCNFFormula.write_dimacs ⟨2, [[1]], [], 0, []⟩) false =
      .ok ⟨1, [[1]], [], 0, []⟩ ∧
    WCNFFormula.num_vars ⟨1, [[1]], [], 0, []⟩ ≠
      WCNFFormula.num_vars ⟨2, [[1]], [], 0, []⟩ := by
  refine ⟨by decide, ?_, by decide⟩
  have h := load_write_eq ⟨2, [[1]], [], 0, []⟩ (by decide)
    (by decide) (by decide) (by decide)
  rw [h]
  rfl

end WCNF
